import Mathlib

/-!
Verification of the Sigil protocol core (TypeScript reference implementation)
against its natural-language specification.

The development shallowly embeds the modules `identity.ts`, `integrity.ts`,
`document.ts`, `rotation.ts` and `agent.ts`.  External cryptographic
dependencies that the repository treats as opaque primitives are modelled
symbolically:

* SHA-256 (`@noble/hashes`) is modelled as an injective function on byte
  sequences (the ideal collision-free hash), here simply the identity on
  bytes; digests are rendered exactly as the code renders them
  (`sha256:` + lowercase hex).
* Ed25519 (`@noble/ed25519`) is modelled as a perfect signature scheme:
  a signature is a byte string determined by the signed message and the
  signer's public key, and `verify` succeeds exactly on that byte string.
  `verify` itself never fails (its documented contract returns a boolean).
* `TextEncoder.encode` (UTF-8) is modelled as an injective encoding of
  strings into bytes (three bytes per character, big-endian code point).
* `bs58` base-58 encoding is implemented concretely (same algorithm as the
  library: leading zero bytes become leading `1` characters, the rest is
  positional base-58); `bs58.decode` fails on characters outside the
  alphabet, exactly as the library throws there.
* `JSON.stringify` is implemented concretely over a JSON value type,
  including the array-replacer semantics used by `canonicalize`
  (a replacer array filters the keys of every object at every nesting
  level and fixes their output order).

Fallible operations (the explicit `throw` in `publicKeyFromSigilId`, and
`bs58.decode` failures inside `verifyString`) are embedded in `Except`.
-/

/-! ## Bytes and characters -/

/-- Byte sequences (each entry is intended to be < 256). -/
abbrev Bytes := List Nat

/-- All entries of a byte sequence are genuine bytes. -/
def ValidBytes (l : Bytes) : Prop := ∀ b ∈ l, b < 256

instance : DecidablePred ValidBytes := fun l =>
  inferInstanceAs (Decidable (∀ b ∈ l, b < 256))

/-- Characters are identified by their code points. -/
theorem charToNat_inj {c d : Char} (h : c.toNat = d.toNat) : c = d :=
  Char.ext (UInt32.ext h)

/-- Two strings with the same character list are equal. -/
theorem strData_inj {s t : String} (h : s.data = t.data) : s = t :=
  String.toList_inj.mp h

/-- Model of `TextEncoder.encode` at the level of one character: a fixed
three-byte big-endian rendering of the code point (an injective byte
encoding of characters, standing in for UTF-8). -/
def charBytes (c : Char) : Bytes :=
  [c.toNat / 65536 % 256, c.toNat / 256 % 256, c.toNat % 256]

/-- Model of `TextEncoder.encode`: injective encoding of a string into bytes. -/
def stringToBytes (s : String) : Bytes :=
  s.data.flatMap charBytes

theorem charBytes_length (c : Char) : (charBytes c).length = 3 := rfl

theorem charBytes_valid (c : Char) : ValidBytes (charBytes c) := by
  intro b hb
  simp only [charBytes, List.mem_cons, List.not_mem_nil, or_false] at hb
  rcases hb with h | h | h <;> subst h <;> exact Nat.mod_lt _ (by norm_num)

theorem stringToBytes_valid (s : String) : ValidBytes (stringToBytes s) := by
  intro b hb
  simp only [stringToBytes, List.mem_flatMap] at hb
  obtain ⟨c, _, hc⟩ := hb
  exact charBytes_valid c b hc

/-- Every code point is below 2^24, so three bytes suffice. -/
theorem char_toNat_lt (c : Char) : c.toNat < 16777216 := by
  rcases c.valid with h | h
  · exact lt_trans h (by norm_num)
  · exact lt_trans h.2 (by norm_num)

theorem charBytes_inj {c d : Char} (h : charBytes c = charBytes d) : c = d := by
  have hc : c.toNat < 16777216 := char_toNat_lt c
  have hd : d.toNat < 16777216 := char_toNat_lt d
  simp only [charBytes, List.cons.injEq, and_true] at h
  apply charToNat_inj
  omega

theorem flatMap_charBytes_inj :
    ∀ l m : List Char, l.flatMap charBytes = m.flatMap charBytes → l = m := by
  intro l
  induction l with
  | nil =>
    intro m h
    cases m with
    | nil => rfl
    | cons d ds => simp [List.flatMap_cons, charBytes] at h
  | cons c cs ih =>
    intro m h
    cases m with
    | nil => simp [List.flatMap_cons, charBytes] at h
    | cons d ds =>
      simp only [List.flatMap_cons] at h
      have hlen1 : (charBytes c).length = 3 := rfl
      have hlen2 : (charBytes d).length = 3 := rfl
      have hhead : charBytes c = charBytes d := by
        have h1 := congrArg (List.take 3) h
        rwa [List.take_append_of_le_length (le_of_eq hlen1.symm),
          List.take_append_of_le_length (le_of_eq hlen2.symm),
          List.take_of_length_le (le_of_eq hlen1),
          List.take_of_length_le (le_of_eq hlen2)] at h1
      have htail : cs.flatMap charBytes = ds.flatMap charBytes := by
        have h2 := congrArg (List.drop 3) h
        rwa [← hlen1, List.drop_left, hlen1, ← hlen2, List.drop_left] at h2
      rw [charBytes_inj hhead, ih ds htail]

theorem stringToBytes_inj {s t : String} (h : stringToBytes s = stringToBytes t) : s = t :=
  strData_inj (flatMap_charBytes_inj _ _ h)

/-! ## Lowercase hex encoding (model of noble's `bytesToHex`) -/

/-- One lowercase hex digit. -/
def hexDigitChar (n : Nat) : Char :=
  if n < 10 then Char.ofNat (48 + n)
  else if n < 16 then Char.ofNat (87 + n)
  else '0'

/-- The two lowercase hex characters of one byte. -/
def byteHexChars (b : Nat) : List Char :=
  [hexDigitChar (b / 16 % 16), hexDigitChar (b % 16)]

/-- Model of `bytesToHex` from `@noble/hashes/utils`: lowercase hex, two
characters per byte. -/
def bytesToHex (l : Bytes) : String :=
  ⟨l.flatMap byteHexChars⟩

theorem hexDigitChar_inj : ∀ a < 16, ∀ b < 16, hexDigitChar a = hexDigitChar b → a = b := by
  decide

theorem hexDigitChar_ne_newline : ∀ a < 16, hexDigitChar a ≠ '\n' := by decide

theorem byteHexChars_inj {a b : Nat} (ha : a < 256) (hb : b < 256)
    (h : byteHexChars a = byteHexChars b) : a = b := by
  simp only [byteHexChars, List.cons.injEq, and_true] at h
  have h1 := hexDigitChar_inj (a / 16 % 16) (Nat.mod_lt _ (by norm_num))
    (b / 16 % 16) (Nat.mod_lt _ (by norm_num)) h.1
  have h2 := hexDigitChar_inj (a % 16) (Nat.mod_lt _ (by norm_num))
    (b % 16) (Nat.mod_lt _ (by norm_num)) h.2
  omega

theorem flatMap_byteHexChars_inj :
    ∀ l m : Bytes, ValidBytes l → ValidBytes m →
      l.flatMap byteHexChars = m.flatMap byteHexChars → l = m := by
  intro l
  induction l with
  | nil =>
    intro m _ _ h
    cases m with
    | nil => rfl
    | cons d ds => simp [List.flatMap_cons, byteHexChars] at h
  | cons c cs ih =>
    intro m hl hm h
    cases m with
    | nil => simp [List.flatMap_cons, byteHexChars] at h
    | cons d ds =>
      simp only [List.flatMap_cons, byteHexChars, List.cons_append, List.nil_append,
        List.cons.injEq] at h
      obtain ⟨h1, h2, h3⟩ := h
      have hc := hl c (by simp)
      have hd := hm d (by simp)
      have hcd : c = d := by
        have e1 := hexDigitChar_inj (c / 16 % 16) (Nat.mod_lt _ (by norm_num))
          (d / 16 % 16) (Nat.mod_lt _ (by norm_num)) h1
        have e2 := hexDigitChar_inj (c % 16) (Nat.mod_lt _ (by norm_num))
          (d % 16) (Nat.mod_lt _ (by norm_num)) h2
        omega
      rw [hcd, ih ds (fun x hx => hl x (by simp [hx])) (fun x hx => hm x (by simp [hx])) h3]

theorem bytesToHex_inj {l m : Bytes} (hl : ValidBytes l) (hm : ValidBytes m)
    (h : bytesToHex l = bytesToHex m) : l = m := by
  apply flatMap_byteHexChars_inj l m hl hm
  have := congrArg String.data h
  simpa [bytesToHex] using this

theorem bytesToHex_no_newline (l : Bytes) : '\n' ∉ (bytesToHex l).data := by
  intro hmem
  simp only [bytesToHex, List.mem_flatMap] at hmem
  obtain ⟨b, _, hb⟩ := hmem
  simp only [byteHexChars, List.mem_cons, List.not_mem_nil, or_false] at hb
  rcases hb with h | h <;>
    exact hexDigitChar_ne_newline _ (Nat.mod_lt _ (by norm_num)) h.symm

/-! ## Positional base conversion (shared by base-58 and byte reconstruction) -/

/-- Little-endian digits of `n` in base `b`, with an explicit fuel bound
(`fuel ≥ n` suffices); the most significant digit comes last and is never
zero. -/
def toBase (b : Nat) : Nat → Nat → List Nat
  | 0, _ => []
  | fuel + 1, n => if n = 0 then [] else n % b :: toBase b fuel (n / b)

/-- Value of a little-endian digit list in base `b`. -/
def ofDigitsLE (b : Nat) : List Nat → Nat
  | [] => 0
  | d :: ds => d + b * ofDigitsLE b ds

theorem getLast?_cons_ne_nil {α : Type} (a : α) {l : List α} (h : l ≠ []) :
    (a :: l).getLast? = l.getLast? := by
  cases l with
  | nil => exact absurd rfl h
  | cons b tl => simp

theorem toBase_zero (b fuel : Nat) : toBase b fuel 0 = [] := by
  cases fuel <;> simp [toBase]

theorem ofDigitsLE_toBase {b : Nat} (hb : 2 ≤ b) :
    ∀ fuel n, n ≤ fuel → ofDigitsLE b (toBase b fuel n) = n := by
  intro fuel
  induction fuel with
  | zero =>
    intro n hn
    interval_cases n
    simp [toBase, ofDigitsLE]
  | succ f ih =>
    intro n hn
    by_cases h0 : n = 0
    · subst h0; simp [toBase, ofDigitsLE]
    · have hdiv : n / b < n := Nat.div_lt_self (Nat.pos_of_ne_zero h0) hb
      have : n / b ≤ f := by omega
      simp only [toBase, h0, if_false, ofDigitsLE, ih (n / b) this]
      exact Nat.mod_add_div n b

theorem toBase_digits_lt {b : Nat} (hb : 0 < b) :
    ∀ fuel n, ∀ d ∈ toBase b fuel n, d < b := by
  intro fuel
  induction fuel with
  | zero => intro n d hd; simp [toBase] at hd
  | succ f ih =>
    intro n d hd
    by_cases h0 : n = 0
    · subst h0; simp [toBase] at hd
    · simp only [toBase, h0, if_false, List.mem_cons] at hd
      rcases hd with h | h
      · subst h; exact Nat.mod_lt _ hb
      · exact ih _ d h

theorem toBase_getLast_ne_zero {b : Nat} (hb : 2 ≤ b) :
    ∀ fuel n, n ≠ 0 → n ≤ fuel →
      ∃ l, toBase b fuel n = l ∧ l ≠ [] ∧ l.getLast? ≠ some 0 := by
  intro fuel
  induction fuel with
  | zero => intro n h0 hn; omega
  | succ f ih =>
    intro n h0 hn
    simp only [toBase, h0, if_false]
    by_cases hq : n / b = 0
    · refine ⟨[n % b], by rw [hq, toBase_zero], by simp, ?_⟩
      have : n % b = n := Nat.mod_eq_of_lt ((Nat.div_eq_zero_iff (by omega)).mp hq)
      simp [List.getLast?, this, h0]
    · have hdiv : n / b < n := Nat.div_lt_self (Nat.pos_of_ne_zero h0) hb
      obtain ⟨l, hl, hne, hlast⟩ := ih (n / b) hq (by omega)
      refine ⟨n % b :: l, by rw [hl], by simp, ?_⟩
      rwa [getLast?_cons_ne_nil _ hne]

theorem ofDigitsLE_pos {b : Nat} (hb : 2 ≤ b) :
    ∀ ds : List Nat, ds ≠ [] → ds.getLast? ≠ some 0 → 0 < ofDigitsLE b ds := by
  intro ds
  induction ds with
  | nil => intro h; exact absurd rfl h
  | cons d tl ih =>
    intro _ hlast
    cases tl with
    | nil =>
      simp only [List.getLast?_singleton, ne_eq, Option.some.injEq] at hlast
      simp [ofDigitsLE]
      omega
    | cons e tl2 =>
      rw [getLast?_cons_ne_nil _ (by simp)] at hlast
      have h1 := ih (by simp) hlast
      have h2 : ofDigitsLE b (d :: e :: tl2) = d + b * ofDigitsLE b (e :: tl2) := rfl
      have h3 : 0 < b * ofDigitsLE b (e :: tl2) := Nat.mul_pos (by omega) h1
      omega

theorem toBase_ofDigitsLE {b : Nat} (hb : 2 ≤ b) :
    ∀ ds : List Nat, (∀ d ∈ ds, d < b) → ds.getLast? ≠ some 0 →
      ∀ fuel, ofDigitsLE b ds ≤ fuel → toBase b fuel (ofDigitsLE b ds) = ds := by
  intro ds
  induction ds with
  | nil => intro _ _ fuel _; simp [ofDigitsLE, toBase_zero]
  | cons d tl ih =>
    intro hlt hlast fuel hfuel
    have hpos : 0 < ofDigitsLE b (d :: tl) :=
      ofDigitsLE_pos hb (d :: tl) (by simp) hlast
    obtain ⟨f, rfl⟩ : ∃ f, fuel = f + 1 := ⟨fuel - 1, by omega⟩
    have hd : d < b := hlt d (by simp)
    have hmod : ofDigitsLE b (d :: tl) % b = d := by
      simp only [ofDigitsLE]
      rw [Nat.add_mul_mod_self_left]
      exact Nat.mod_eq_of_lt hd
    have hdiv : ofDigitsLE b (d :: tl) / b = ofDigitsLE b tl := by
      simp only [ofDigitsLE]
      rw [Nat.add_mul_div_left _ _ (by omega), Nat.div_eq_of_lt hd]
      omega
    simp only [toBase, Nat.pos_iff_ne_zero.mp hpos, if_false, hmod, hdiv]
    cases tl with
    | nil => simp [ofDigitsLE, toBase_zero]
    | cons e tl2 =>
      rw [getLast?_cons_ne_nil _ (by simp)] at hlast
      have htail : ofDigitsLE b (e :: tl2) ≤ f := by
        have h1 : 0 < ofDigitsLE b (e :: tl2) := ofDigitsLE_pos hb _ (by simp) hlast
        have h2 : ofDigitsLE b (d :: tl2.cons e) = d + b * ofDigitsLE b (e :: tl2) := rfl
        have hb2 : 2 * ofDigitsLE b (e :: tl2) ≤ b * ofDigitsLE b (e :: tl2) :=
          Nat.mul_le_mul_right _ hb
        omega
      rw [ih (fun x hx => hlt x (by simp [hx])) hlast f htail]

theorem ofDigitsLE_append_zeros (b : Nat) :
    ∀ (l : List Nat) (z : Nat), ofDigitsLE b (l ++ List.replicate z 0) = ofDigitsLE b l := by
  intro l
  induction l with
  | nil =>
    intro z
    induction z with
    | zero => simp
    | succ n ih =>
      have ih2 : ofDigitsLE b (List.replicate n 0) = 0 := by simpa [ofDigitsLE] using ih
      simp [List.replicate_succ, ofDigitsLE, ih2]
  | cons d tl ih => intro z; simp [ofDigitsLE, ih]

/-! ## Base-58 (model of the external bs58 library) -/

/-- The Bitcoin base-58 alphabet used by bs58. -/
def base58Alphabet : List Char :=
  ['1', '2', '3', '4', '5', '6', '7', '8', '9',
   'A', 'B', 'C', 'D', 'E', 'F', 'G', 'H', 'J', 'K', 'L', 'M', 'N',
   'P', 'Q', 'R', 'S', 'T', 'U', 'V', 'W', 'X', 'Y', 'Z',
   'a', 'b', 'c', 'd', 'e', 'f', 'g', 'h', 'i', 'j', 'k', 'm', 'n',
   'o', 'p', 'q', 'r', 's', 't', 'u', 'v', 'w', 'x', 'y', 'z']

/-- Character of one base-58 digit. -/
def b58Char (d : Nat) : Char := base58Alphabet.getD d '1'

/-- Value of one base-58 character; `none` for characters outside the
alphabet (where bs58 throws). -/
def b58Val (c : Char) : Option Nat := base58Alphabet.findIdx? (· == c)

/-- Model of `bs58.encode`: leading zero bytes become leading `1`s, the rest
is the big-endian base-58 rendering of the byte string's value. -/
def encode58 (bytes : Bytes) : String :=
  let zeros := (bytes.takeWhile (· == 0)).length
  let stripped := bytes.dropWhile (· == 0)
  let n := ofDigitsLE 256 stripped.reverse
  ⟨List.replicate zeros '1' ++ (toBase 58 n n).reverse.map b58Char⟩

/-- Option-valued traversal, modelling a loop that aborts at the first
failure (as bs58's decode loop throws at the first bad character). -/
def mapMOpt {α β : Type} (f : α → Option β) : List α → Option (List β)
  | [] => some []
  | a :: t =>
    match f a with
    | none => none
    | some b => (mapMOpt f t).map (fun r => b :: r)

/-- Model of `bs58.decode`: fails exactly on characters outside the
alphabet; leading `1`s become leading zero bytes, the rest is read as a
base-58 number and written out in base 256. -/
def decode58 (s : String) : Option Bytes :=
  match mapMOpt b58Val s.data with
  | none => none
  | some vals =>
    let ones := (s.data.takeWhile (· == '1')).length
    let m := ofDigitsLE 58 vals.reverse
    some (List.replicate ones 0 ++ (toBase 256 m m).reverse)

theorem b58Val_b58Char : ∀ d < 58, b58Val (b58Char d) = some d := by decide

theorem b58Char_ne_one : ∀ d < 58, d ≠ 0 → b58Char d ≠ '1' := by decide

theorem b58Val_one : b58Val '1' = some 0 := by decide

/-- takeWhile stops exactly at the first element violating the predicate. -/
theorem takeWhile_append_stop {α : Type} (p : α → Bool) (l1 l2 : List α) (c : α)
    (h1 : ∀ x ∈ l1, p x) (h2 : p c = false) :
    List.takeWhile p (l1 ++ c :: l2) = l1 := by
  induction l1 with
  | nil => simp [List.takeWhile, h2]
  | cons a as ih =>
    simp only [List.cons_append, List.takeWhile]
    rw [h1 a (by simp)]
    simp only [List.cons.injEq, true_and]
    exact ih (fun x hx => h1 x (by simp [hx]))

theorem dropWhile_head_false {α : Type} (p : α → Bool) (l : List α) (a : α) (t : List α)
    (h : l.dropWhile p = a :: t) : p a = false := by
  induction l with
  | nil => simp [List.dropWhile] at h
  | cons b bs ih =>
    by_cases hb : p b
    · rw [List.dropWhile_cons_of_pos hb] at h
      exact ih h
    · rw [List.dropWhile_cons_of_neg hb] at h
      cases h
      exact Bool.of_not_eq_true hb

theorem mapMOpt_append {α β : Type} (f : α → Option β) (l1 l2 : List α) (r1 r2 : List β)
    (h1 : mapMOpt f l1 = some r1) (h2 : mapMOpt f l2 = some r2) :
    mapMOpt f (l1 ++ l2) = some (r1 ++ r2) := by
  induction l1 generalizing r1 with
  | nil =>
    simp only [mapMOpt, Option.some.injEq] at h1
    subst h1
    simpa using h2
  | cons a as ih =>
    simp only [mapMOpt] at h1 ⊢
    cases hfa : f a with
    | none => rw [hfa] at h1; exact absurd h1 (by simp)
    | some b =>
      rw [hfa] at h1
      simp only [Option.map_eq_some'] at h1
      obtain ⟨rtl, hrtl, hr1⟩ := h1
      subst hr1
      show Option.map (fun r => b :: r) (mapMOpt f (as ++ l2)) = some (b :: (rtl ++ r2))
      rw [ih rtl hrtl]
      rfl

theorem mapMOpt_b58Val_replicate_one (z : Nat) :
    mapMOpt b58Val (List.replicate z '1') = some (List.replicate z 0) := by
  induction z with
  | zero => rfl
  | succ n ih => simp [List.replicate_succ, mapMOpt, b58Val_one, ih]

theorem mapMOpt_b58Val_map_b58Char (ds : List Nat) (h : ∀ d ∈ ds, d < 58) :
    mapMOpt b58Val (ds.map b58Char) = some ds := by
  induction ds with
  | nil => rfl
  | cons d tl ih =>
    simp [List.map_cons, mapMOpt, b58Val_b58Char d (h d (by simp)),
      ih (fun x hx => h x (by simp [hx]))]

/-- bs58 decodes exactly what it encoded: the roundtrip property of the
external base-58 library, for genuine byte strings. -/
theorem decode58_encode58 {bytes : Bytes} (hv : ValidBytes bytes) :
    decode58 (encode58 bytes) = some bytes := by
  have hsplit : bytes.takeWhile (· == 0) ++ bytes.dropWhile (· == 0) = bytes :=
    List.takeWhile_append_dropWhile (· == 0) bytes
  set zeros := (bytes.takeWhile (· == 0)).length with hzeros
  set stripped := bytes.dropWhile (· == 0) with hstripped
  have htake : bytes.takeWhile (· == 0) = List.replicate zeros 0 := by
    apply List.eq_replicate_of_mem
    intro x hx
    have := List.mem_takeWhile_imp hx
    simpa using this
  have hbytes : List.replicate zeros 0 ++ stripped = bytes := by
    rw [← htake]; exact hsplit
  have hvs : ValidBytes stripped := by
    intro b hb
    exact hv b (by rw [← hbytes]; simp [hb])
  set n := ofDigitsLE 256 stripped.reverse with hn
  set ds := toBase 58 n n with hds
  have hds_lt : ∀ d ∈ ds, d < 58 := toBase_digits_lt (by norm_num) n n
  have hds_val : ofDigitsLE 58 ds = n := ofDigitsLE_toBase (by norm_num) n n le_rfl
  -- the encoded character list
  have hchars : (encode58 bytes).data
      = List.replicate zeros '1' ++ ds.reverse.map b58Char := rfl
  -- character values decode digit-wise
  have hvals : mapMOpt b58Val (encode58 bytes).data
      = some (List.replicate zeros 0 ++ ds.reverse) := by
    rw [hchars]
    exact mapMOpt_append _ _ _ _ _ (mapMOpt_b58Val_replicate_one zeros)
      (mapMOpt_b58Val_map_b58Char ds.reverse (fun d hd => hds_lt d (List.mem_reverse.mp hd)))
  -- the number recovered from the digit values
  have hm : ofDigitsLE 58 (List.replicate zeros 0 ++ ds.reverse).reverse = n := by
    rw [List.reverse_append, List.reverse_reverse, List.reverse_replicate,
      ofDigitsLE_append_zeros, hds_val]
  -- the head of stripped is nonzero
  have hstripped_head : ∀ a t, stripped = a :: t → a ≠ 0 := by
    intro a t hat ha0
    have := dropWhile_head_false (· == 0) bytes a t (by rw [← hstripped, hat])
    rw [ha0] at this
    simp at this
  -- the byte string is recovered from the number
  have hback : (toBase 256 n n).reverse = stripped := by
    by_cases hempty : stripped = []
    · have hn0 : n = 0 := by rw [hn, hempty]; rfl
      rw [hn0, toBase_zero, hempty]
      rfl
    · obtain ⟨a, t, hat⟩ := List.exists_cons_of_ne_nil hempty
      have hlast : (stripped.reverse).getLast? ≠ some 0 := by
        rw [List.getLast?_reverse, hat]
        simp only [List.head?_cons, ne_eq, Option.some.injEq]
        exact hstripped_head a t hat
      have hvalid : ∀ d ∈ stripped.reverse, d < 256 :=
        fun d hd => hvs d (List.mem_reverse.mp hd)
      have hres := toBase_ofDigitsLE (by norm_num) stripped.reverse hvalid hlast n (le_of_eq hn.symm)
      rw [hn] at hres ⊢
      rw [hres, List.reverse_reverse]
  -- the count of leading '1' characters
  have hones : ((encode58 bytes).data.takeWhile (· == '1')).length = zeros := by
    rw [hchars]
    by_cases hrev : ds.reverse = []
    · rw [hrev]
      simp only [List.map_nil, List.append_nil, List.takeWhile_replicate]
      simp
    · obtain ⟨c, t, hct⟩ := List.exists_cons_of_ne_nil hrev
      have hc_mem : c ∈ ds := List.mem_reverse.mp (by rw [hct]; simp)
      have hc_lt : c < 58 := hds_lt c hc_mem
      have hc_ne : c ≠ 0 := by
        intro hc0
        have hne : ds ≠ [] := by
          intro h
          rw [h] at hct
          simp at hct
        have hnz : n ≠ 0 := by
          intro h0
          rw [hds, h0, toBase_zero] at hne
          exact hne rfl
        obtain ⟨l, hl, hlne, hllast⟩ := @toBase_getLast_ne_zero 58 (by norm_num) n n hnz le_rfl
        rw [← hds] at hl
        rw [← hl] at hllast
        have hlastc : ds.getLast? = some c := by
          rw [List.getLast?_eq_head?_reverse, hct]
          simp
        rw [hc0] at hlastc
        exact hllast hlastc
      rw [hct, List.map_cons, takeWhile_append_stop _ _ _ _
        (by intro x hx; simp only [List.mem_replicate] at hx; simp [hx.2])
        (by simp only [beq_eq_false_iff_ne, ne_eq]; exact b58Char_ne_one c hc_lt hc_ne)]
      simp
  -- assemble
  simp only [decode58, hvals, hones, hm, hback]
  rw [hbytes]

/-! ## String ordering (model of JavaScript's default string comparison) -/

/-- Lexicographic comparison of character lists by code point. -/
def lexLe : List Char → List Char → Bool
  | [], _ => true
  | _ :: _, [] => false
  | a :: as, b :: bs =>
    if a.toNat < b.toNat then true
    else if b.toNat < a.toNat then false
    else lexLe as bs

/-- Model of JavaScript string comparison (as used by `Array.prototype.sort`
and hence `Object.keys(...).sort()`): lexicographic by code unit. -/
def strLe (a b : String) : Bool := lexLe a.data b.data

/-- The sorting relation on strings. -/
def strRel (a b : String) : Prop := strLe a b = true

instance : DecidableRel strRel := fun a b => inferInstanceAs (Decidable (strLe a b = true))

theorem lexLe_total : ∀ a b : List Char, lexLe a b = true ∨ lexLe b a = true := by
  intro a
  induction a with
  | nil => intro b; left; rfl
  | cons x xs ih =>
    intro b
    cases b with
    | nil => right; rfl
    | cons y ys =>
      by_cases hxy : x.toNat < y.toNat
      · left; simp [lexLe, hxy]
      · by_cases hyx : y.toNat < x.toNat
        · right; simp [lexLe, hyx]
        · rcases ih ys with h | h
          · left; simp [lexLe, hxy, hyx, h]
          · right; simp [lexLe, hxy, hyx, h]

theorem lexLe_true_cases {x y : Char} {xs ys : List Char}
    (h : lexLe (x :: xs) (y :: ys) = true) :
    x.toNat < y.toNat ∨ (x.toNat = y.toNat ∧ lexLe xs ys = true) := by
  by_cases h1 : x.toNat < y.toNat
  · exact Or.inl h1
  · by_cases h2 : y.toNat < x.toNat
    · simp [lexLe, h1, h2] at h
    · exact Or.inr ⟨by omega, by simpa [lexLe, h1, h2] using h⟩

theorem lexLe_of_lt {x y : Char} {xs ys : List Char} (h : x.toNat < y.toNat) :
    lexLe (x :: xs) (y :: ys) = true := by
  simp [lexLe, h]

theorem lexLe_of_eq {x y : Char} {xs ys : List Char} (h : x.toNat = y.toNat)
    (htl : lexLe xs ys = true) : lexLe (x :: xs) (y :: ys) = true := by
  simp [lexLe, h, htl]

theorem lexLe_antisymm : ∀ a b : List Char,
    lexLe a b = true → lexLe b a = true → a = b := by
  intro a
  induction a with
  | nil =>
    intro b _ hba
    cases b with
    | nil => rfl
    | cons y ys => simp [lexLe] at hba
  | cons x xs ih =>
    intro b hab hba
    cases b with
    | nil => simp [lexLe] at hab
    | cons y ys =>
      rcases lexLe_true_cases hab with h1 | ⟨h1, htl1⟩ <;>
        rcases lexLe_true_cases hba with h2 | ⟨h2, htl2⟩
      · omega
      · omega
      · omega
      · rw [charToNat_inj h1, ih ys htl1 htl2]

theorem lexLe_trans : ∀ a b c : List Char,
    lexLe a b = true → lexLe b c = true → lexLe a c = true := by
  intro a
  induction a with
  | nil => intro b c _ _; rfl
  | cons x xs ih =>
    intro b c hab hbc
    cases b with
    | nil => simp [lexLe] at hab
    | cons y ys =>
      cases c with
      | nil => simp [lexLe] at hbc
      | cons z zs =>
        rcases lexLe_true_cases hab with h1 | ⟨h1, htl1⟩ <;>
          rcases lexLe_true_cases hbc with h2 | ⟨h2, htl2⟩
        · exact lexLe_of_lt (by omega)
        · exact lexLe_of_lt (by omega)
        · exact lexLe_of_lt (by omega)
        · exact lexLe_of_eq (by omega) (ih ys zs htl1 htl2)

instance : IsTotal String strRel :=
  ⟨fun a b => lexLe_total a.data b.data⟩

instance : IsTrans String strRel :=
  ⟨fun a b c hab hbc => lexLe_trans a.data b.data c.data hab hbc⟩

instance : IsAntisymm String strRel :=
  ⟨fun a b hab hba => strData_inj (lexLe_antisymm a.data b.data hab hba)⟩

instance : IsRefl String strRel := ⟨fun a => by
  have := lexLe_total a.data a.data
  rcases this with h | h <;> exact h⟩

/-- Model of `Object.keys(x).sort()` and `Array.prototype.sort()` on
strings. -/
def sortStrs (l : List String) : List String := List.insertionSort strRel l

theorem sortStrs_sorted (l : List String) : (sortStrs l).Sorted strRel :=
  List.sorted_insertionSort strRel l

theorem sortStrs_perm (l : List String) : (sortStrs l).Perm l :=
  List.perm_insertionSort strRel l

/-- Two permutations of each other sort identically. -/
theorem sortStrs_eq_of_perm {l m : List String} (h : l.Perm m) :
    sortStrs l = sortStrs m :=
  List.eq_of_perm_of_sorted ((sortStrs_perm l).trans (h.trans (sortStrs_perm m).symm))
    (sortStrs_sorted l) (sortStrs_sorted m)

/-! ## JSON values and JSON.stringify -/

/-- The opening curly brace character. -/
def lbrace : Char := Char.ofNat 123

/-- The closing curly brace character. -/
def rbrace : Char := Char.ofNat 125

/-- JSON string escaping, as performed by JSON.stringify. -/
def escapeChar (c : Char) : List Char :=
  if c = '"' then ['\\', '"']
  else if c = '\\' then ['\\', '\\']
  else if c = Char.ofNat 8 then ['\\', 'b']
  else if c = Char.ofNat 12 then ['\\', 'f']
  else if c = '\n' then ['\\', 'n']
  else if c = '\r' then ['\\', 'r']
  else if c = '\t' then ['\\', 't']
  else if c.toNat < 32 then
    ['\\', 'u', '0', '0', hexDigitChar (c.toNat / 16 % 16), hexDigitChar (c.toNat % 16)]
  else [c]

/-- A JSON string literal with quotes and escapes. -/
def quoteChars (s : String) : List Char :=
  '"' :: s.data.flatMap escapeChar ++ ['"']

/-! JSON values as they occur in the protocol records: strings, arrays and
objects (an object is its ordered field list). -/
mutual

inductive JVal : Type where
  | jstr : String → JVal
  | jbool : Bool → JVal
  | jarr : JArr → JVal
  | jobj : JObj → JVal

inductive JArr : Type where
  | anil : JArr
  | acons : JVal → JArr → JArr

inductive JObj : Type where
  | onil : JObj
  | ocons : String → JVal → JObj → JObj

end

/-- The keys of a JSON object, in insertion order (model of `Object.keys`). -/
def JObj.keys : JObj → List String
  | .onil => []
  | .ocons k _ rest => k :: keys rest

/-- Build an object from a field list. -/
def JObj.ofList : List (String × JVal) → JObj
  | [] => .onil
  | (k, v) :: rest => .ocons k v (ofList rest)

/-- Build an array from a value list. -/
def JArr.ofList : List JVal → JArr
  | [] => .anil
  | v :: rest => .acons v (ofList rest)

/-! Plain JSON.stringify (no replacer): fields in insertion order, no
whitespace. -/
mutual

def jvalChars : JVal → List Char
  | .jstr s => quoteChars s
  | .jbool true => ['t', 'r', 'u', 'e']
  | .jbool false => ['f', 'a', 'l', 's', 'e']
  | .jarr a => '[' :: (jarrChars a ++ [']'])
  | .jobj o => lbrace :: (jobjChars o ++ [rbrace])

def jarrChars : JArr → List Char
  | .anil => []
  | .acons v .anil => jvalChars v
  | .acons v (.acons w rest) => jvalChars v ++ ',' :: jarrChars (JArr.acons w rest)

def jobjChars : JObj → List Char
  | .onil => []
  | .ocons k v .onil => quoteChars k ++ ':' :: jvalChars v
  | .ocons k v (.ocons k2 v2 rest) =>
    quoteChars k ++ ':' :: jvalChars v ++ ',' :: jobjChars (JObj.ocons k2 v2 rest)

end

/-- JSON.stringify of a record, no replacer. -/
def stringifyObj (o : JObj) : String := ⟨jvalChars (.jobj o)⟩

/-- Comma-join of pre-rendered chunks. -/
def joinCommaChunks : List (List Char) → List Char
  | [] => []
  | [x] => x
  | x :: y :: rest => x ++ ',' :: joinCommaChunks (y :: rest)

/-- One rendered key/value member. -/
def pairChunk (k : String) (rv : List Char) : List Char :=
  quoteChars k ++ ':' :: rv

/-- First binding of a key among rendered members. -/
def lookupRendered (k : String) : List (String × List Char) → Option (List Char)
  | [] => none
  | (k2, rv) :: rest => if k2 = k then some rv else lookupRendered k rest

/-- The members an array replacer keeps, in replacer order (the semantics of
JSON.stringify with an array replacer: at every object, exactly the keys
listed in the replacer are serialized, in the replacer's order). -/
def selectChunks (allowed : List String) (ps : List (String × List Char)) : List (List Char) :=
  allowed.filterMap (fun k => (lookupRendered k ps).map (pairChunk k))

/-! JSON.stringify with an array replacer `allowed`, applied (as in
JavaScript) to every object at every nesting level; arrays are not
filtered. -/
mutual

def jvalCharsF (allowed : List String) : JVal → List Char
  | .jstr s => quoteChars s
  | .jbool true => ['t', 'r', 'u', 'e']
  | .jbool false => ['f', 'a', 'l', 's', 'e']
  | .jarr a => '[' :: (jarrCharsF allowed a ++ [']'])
  | .jobj o => lbrace :: (joinCommaChunks (selectChunks allowed (jobjPairsF allowed o)) ++ [rbrace])

def jarrCharsF (allowed : List String) : JArr → List Char
  | .anil => []
  | .acons v .anil => jvalCharsF allowed v
  | .acons v (.acons w rest) => jvalCharsF allowed v ++ ',' :: jarrCharsF allowed (JArr.acons w rest)

def jobjPairsF (allowed : List String) : JObj → List (String × List Char)
  | .onil => []
  | .ocons k v rest => (k, jvalCharsF allowed v) :: jobjPairsF allowed rest

end

/-- Embedding of the repository's canonicalize:
JSON.stringify(obj, Object.keys(obj).sort()) -- the replacer array holds the
sorted top-level keys and is applied at every nesting level. -/
def canonicalize (o : JObj) : String :=
  ⟨jvalCharsF (sortStrs o.keys) (.jobj o)⟩

/-- Ordering of rendered members by key, for the specification's
canonical form. -/
def pairRel (a b : String × List Char) : Prop := strRel a.1 b.1

instance : DecidableRel pairRel := fun a b => inferInstanceAs (Decidable (strLe a.1 b.1 = true))

/-- Sort rendered members by key. -/
def sortPairs (ps : List (String × List Char)) : List (String × List Char) :=
  List.insertionSort pairRel ps

/-! Modelled from the spec: serialization with all field names recursively
sorted at every nesting level and every field of every nested object
preserved, no insignificant whitespace. -/
mutual

def jvalCharsS : JVal → List Char
  | .jstr s => quoteChars s
  | .jbool true => ['t', 'r', 'u', 'e']
  | .jbool false => ['f', 'a', 'l', 's', 'e']
  | .jarr a => '[' :: (jarrCharsS a ++ [']'])
  | .jobj o =>
    lbrace :: (joinCommaChunks ((sortPairs (jobjPairsS o)).map (fun p => pairChunk p.1 p.2)) ++ [rbrace])

def jarrCharsS : JArr → List Char
  | .anil => []
  | .acons v .anil => jvalCharsS v
  | .acons v (.acons w rest) => jvalCharsS v ++ ',' :: jarrCharsS (JArr.acons w rest)

def jobjPairsS : JObj → List (String × List Char)
  | .onil => []
  | .ocons k v rest => (k, jvalCharsS v) :: jobjPairsS rest

end

/-- Modelled from the spec: the canonicalization the specification
describes (recursive key-sort, all fields preserved, no whitespace). -/
def canonicalizeSpec (o : JObj) : String :=
  ⟨jvalCharsS (.jobj o)⟩

/-! ## Identity module (identity.ts) -/

/-- An Ed25519 keypair as the code stores it: raw public and private key
bytes. -/
structure SigilKeypair where
  publicKey : Bytes
  privateKey : Bytes
deriving DecidableEq, Repr

/-- Symbolic model of noble's `ed.getPublicKey`: the public key
deterministically derived from a private key. -/
def getPublicKey (privateKey : Bytes) : Bytes := privateKey

/-- A keypair as produced by `generateKeypair`: the public half is derived
from the private half, and the key material consists of genuine bytes. -/
def WellFormedKeypair (kp : SigilKeypair) : Prop :=
  kp.publicKey = getPublicKey kp.privateKey ∧ ValidBytes kp.privateKey

instance : DecidablePred WellFormedKeypair := fun kp =>
  inferInstanceAs (Decidable (kp.publicKey = getPublicKey kp.privateKey ∧ ValidBytes kp.privateKey))

/-- Symbolic model of `ed.sign`: the unique signature bytes for a message
under a private key (determined by the message and the signer's public
key). -/
def edSign (message : Bytes) (privateKey : Bytes) : Bytes :=
  message ++ getPublicKey privateKey

/-- Symbolic model of `ed.verify`: succeeds exactly on the signature bytes
that `ed.sign` produces for this message under the keypair of this public
key.  Total: its documented contract returns a boolean. -/
def edVerify (signature message publicKey : Bytes) : Bool :=
  signature == message ++ publicKey

def SIGIL_PREFIX : String := "sigil:"

/-- `deriveSigilId`: prefix plus base-58 of the raw public key bytes. -/
def deriveSigilId (publicKey : Bytes) : String :=
  SIGIL_PREFIX ++ encode58 publicKey

/-- `publicKeyFromSigilId`: throws unless the identifier starts with the
prefix; then base-58-decodes the remainder (bs58 throws on characters
outside the alphabet). -/
def publicKeyFromSigilId (sigilId : String) : Except String Bytes :=
  if SIGIL_PREFIX.data.isPrefixOf sigilId.data then
    match decode58 ⟨sigilId.data.drop 6⟩ with
    | some bytes => .ok bytes
    | none => .error "Non-base58 character"
  else
    .error "Invalid Sigil ID: must start with \"sigil:\""

/-- `signString`: UTF-8-encode, sign, base-58-encode the signature. -/
def signString (message : String) (privateKey : Bytes) : String :=
  encode58 (edSign (stringToBytes message) privateKey)

/-- `verifyString`: base-58-decode the signature (bs58 throws on malformed
input), UTF-8-encode the message, verify. -/
def verifyString (signature message : String) (publicKey : Bytes) : Except String Bool :=
  match decode58 signature with
  | some sigBytes => .ok (edVerify sigBytes (stringToBytes message) publicKey)
  | none => .error "Non-base58 character"

theorem edSign_valid {message privateKey : Bytes} (hm : ValidBytes message)
    (hk : ValidBytes privateKey) : ValidBytes (edSign message privateKey) := by
  intro b hb
  rcases List.mem_append.mp hb with h | h
  · exact hm b h
  · exact hk b h

/-- Signing and verifying with a well-formed keypair round-trips. -/
theorem verifyString_signString {message : String} {kp : SigilKeypair}
    (hkp : WellFormedKeypair kp) :
    verifyString (signString message kp.privateKey) message kp.publicKey = .ok true := by
  obtain ⟨hpub, hval⟩ := hkp
  have hsig : ValidBytes (edSign (stringToBytes message) kp.privateKey) :=
    edSign_valid (stringToBytes_valid message) hval
  simp only [verifyString, signString, decode58_encode58 hsig, hpub]
  simp [edVerify, edSign]

/-- The signing roundtrip stated over raw private-key bytes. -/
theorem verifyString_signString_sk {message : String} {sk : Bytes} (hsk : ValidBytes sk) :
    verifyString (signString message sk) message (getPublicKey sk) = .ok true :=
  @verifyString_signString message { publicKey := getPublicKey sk, privateKey := sk } ⟨rfl, hsk⟩

/-- The identifier of a public key decodes back to exactly that key. -/
theorem publicKeyFromSigilId_deriveSigilId {publicKey : Bytes} (hv : ValidBytes publicKey) :
    publicKeyFromSigilId (deriveSigilId publicKey) = .ok publicKey := by
  have hdata : (deriveSigilId publicKey).data
      = SIGIL_PREFIX.data ++ (encode58 publicKey).data := by
    simp [deriveSigilId, String.data_append]
  have hpre : SIGIL_PREFIX.data.isPrefixOf (deriveSigilId publicKey).data = true := by
    rw [hdata]
    exact List.isPrefixOf_iff_prefix.mpr ⟨(encode58 publicKey).data, rfl⟩
  have hdrop : (deriveSigilId publicKey).data.drop 6 = (encode58 publicKey).data := by
    rw [hdata]
    have : SIGIL_PREFIX.data.length = 6 := rfl
    rw [← this, List.drop_left]
  simp only [publicKeyFromSigilId, hpre, if_true, hdrop]
  have henc : (⟨(encode58 publicKey).data⟩ : String) = encode58 publicKey := rfl
  rw [henc, decode58_encode58 hv]

/-! ## Integrity module (integrity.ts) -/

/-- Symbolic model of SHA-256 from noble/hashes: the ideal injective
digest function on bytes. -/
def sha256 (bytes : Bytes) : Bytes := bytes

/-- `hashContent`: UTF-8-encode, digest, tag with the algorithm and
lowercase hex. -/
def hashContent (content : String) : String :=
  "sha256:" ++ bytesToHex (sha256 (stringToBytes content))

/-- A file map as the JS code receives it: named contents in insertion
order (`Object.keys` enumerates string keys in insertion order; key sets of
JS objects never repeat a key). -/
abbrev FileMap := List (String × String)

/-- Indexing `files[key]` for a key known to be present. -/
def fileValue (files : FileMap) (k : String) : String :=
  (files.lookup k).getD ""

/-- Model of `Array.prototype.join` over a separator character. -/
def joinSepChars (sep : Char) : List (List Char) → List Char
  | [] => []
  | [x] => x
  | x :: y :: rest => x ++ sep :: joinSepChars sep (y :: rest)

/-- `computeSoulHash`: sort the file names, digest each content, join the
digests with a newline, digest the joined string. -/
def computeSoulHash (files : FileMap) : String :=
  let sortedKeys := sortStrs (files.map Prod.fst)
  let hashes := sortedKeys.map (fun k => hashContent (fileValue files k))
  let combined : String := ⟨joinSepChars '\n' (hashes.map String.data)⟩
  "sha256:" ++ bytesToHex (sha256 (stringToBytes combined))

/-- An integrity attestation record. -/
structure IntegrityAttestation where
  soulHash : String
  configHash : Option String
  files : List String
  attestedAt : String
  signature : String
deriving DecidableEq, Repr

/-- The exact payload signed and checked by the integrity module:
JSON.stringify of the three-field record, insertion order. -/
def attPayload (soulHash : String) (files : List String) (attestedAt : String) : String :=
  stringifyObj (JObj.ofList
    [("soulHash", .jstr soulHash),
     ("files", .jarr (JArr.ofList (files.map JVal.jstr))),
     ("attestedAt", .jstr attestedAt)])

/-- `createAttestation`: soul hash, sorted file names, timestamp, signature
over the canonical payload. -/
def createAttestation (files : FileMap) (privateKey : Bytes) (now : String) :
    IntegrityAttestation :=
  let soulHash := computeSoulHash files
  let fileNames := sortStrs (files.map Prod.fst)
  { soulHash := soulHash
    configHash := none
    files := fileNames
    attestedAt := now
    signature := signString (attPayload soulHash fileNames now) privateKey }

/-- The structured result of `verifyAttestation`. -/
structure AttestationResult where
  intact : Bool
  signatureValid : Bool
  hashMatch : Bool
  currentHash : String
deriving DecidableEq, Repr

/-- `verifyAttestation`: verify the signature over the attestation's own
recorded fields, recompute the soul hash from the candidate files, report
both facts and their conjunction. -/
def verifyAttestation (att : IntegrityAttestation) (currentFiles : FileMap)
    (publicKey : Bytes) : Except String AttestationResult := do
  let payload := attPayload att.soulHash att.files att.attestedAt
  let signatureValid ← verifyString att.signature payload publicKey
  let currentHash := computeSoulHash currentFiles
  let hashMatch := currentHash == att.soulHash
  return { intact := signatureValid && hashMatch
           signatureValid := signatureValid
           hashMatch := hashMatch
           currentHash := currentHash }

/-! ## Integrity lemmas -/

theorem append_sep_inj {sep : Char} :
    ∀ l1 : List Char, ∀ {l2 r1 r2 : List Char}, sep ∉ l1 → sep ∉ l2 →
      l1 ++ sep :: r1 = l2 ++ sep :: r2 → l1 = l2 ∧ r1 = r2 := by
  intro l1
  induction l1 with
  | nil =>
    intro l2 r1 r2 _ h2 h
    cases l2 with
    | nil => simpa using h
    | cons b bs =>
      simp only [List.nil_append, List.cons_append, List.cons.injEq] at h
      exfalso
      apply h2
      rw [h.1]
      exact List.mem_cons_self b bs
  | cons a as ih =>
    intro l2 r1 r2 h1 h2 h
    cases l2 with
    | nil =>
      simp only [List.cons_append, List.nil_append, List.cons.injEq] at h
      exfalso
      apply h1
      rw [← h.1]
      exact List.mem_cons_self a as
    | cons b bs =>
      simp only [List.cons_append, List.cons.injEq] at h
      obtain ⟨hab, htl⟩ := h
      have := ih (fun hc => h1 (List.mem_cons_of_mem a hc))
        (fun hc => h2 (List.mem_cons_of_mem b hc)) htl
      exact ⟨by rw [hab, this.1], this.2⟩

theorem joinSepChars_inj {sep : Char} :
    ∀ xs ys : List (List Char),
      (∀ p ∈ xs, sep ∉ p ∧ p ≠ []) → (∀ p ∈ ys, sep ∉ p ∧ p ≠ []) →
      joinSepChars sep xs = joinSepChars sep ys → xs = ys := by
  intro xs
  induction xs with
  | nil =>
    intro ys _ hys h
    cases ys with
    | nil => rfl
    | cons y ytl =>
      cases ytl with
      | nil =>
        simp only [joinSepChars] at h
        exact absurd h.symm (hys y (by simp)).2
      | cons z ztl =>
        exfalso
        simp only [joinSepChars] at h
        have hlen := congrArg List.length h
        simp only [List.length_nil, List.length_append, List.length_cons] at hlen
        omega
  | cons x xtl ih =>
    intro ys hxs hys h
    cases ys with
    | nil =>
      cases xtl with
      | nil =>
        simp only [joinSepChars] at h
        exact absurd h (hxs x (by simp)).2
      | cons w wtl =>
        exfalso
        simp only [joinSepChars] at h
        have hlen := congrArg List.length h
        simp only [List.length_nil, List.length_append, List.length_cons] at hlen
        omega
    | cons y ytl =>
      cases xtl with
      | nil =>
        cases ytl with
        | nil => simpa only [joinSepChars, List.cons.injEq, and_true] using h
        | cons z ztl =>
          exfalso
          simp only [joinSepChars] at h
          apply (hxs x (by simp)).1
          rw [h]
          exact List.mem_append.mpr (Or.inr (List.mem_cons_self _ _))
      | cons w wtl =>
        cases ytl with
        | nil =>
          exfalso
          simp only [joinSepChars] at h
          apply (hys y (by simp)).1
          rw [← h]
          exact List.mem_append.mpr (Or.inr (List.mem_cons_self _ _))
        | cons z ztl =>
          simp only [joinSepChars] at h
          obtain ⟨hxy, htl⟩ := append_sep_inj x (hxs x (by simp)).1 (hys y (by simp)).1 h
          have hxtl : ∀ p ∈ w :: wtl, sep ∉ p ∧ p ≠ [] :=
            fun p hp => hxs p (List.mem_cons_of_mem x hp)
          have hytl : ∀ p ∈ z :: ztl, sep ∉ p ∧ p ≠ [] :=
            fun p hp => hys p (List.mem_cons_of_mem y hp)
          rw [hxy, ih (z :: ztl) hxtl hytl htl]

theorem hashContent_inj {s t : String} (h : hashContent s = hashContent t) : s = t := by
  have hdata := congrArg String.data h
  simp only [hashContent, String.data_append] at hdata
  have hhex := List.append_cancel_left hdata
  exact stringToBytes_inj (bytesToHex_inj (stringToBytes_valid s) (stringToBytes_valid t)
    (strData_inj hhex))

theorem hashContent_no_newline (s : String) : '\n' ∉ (hashContent s).data := by
  simp only [hashContent, String.data_append]
  intro hmem
  rcases List.mem_append.mp hmem with h | h
  · revert h; decide
  · exact bytesToHex_no_newline _ h

theorem hashContent_ne_nil (s : String) : (hashContent s).data ≠ [] := by
  simp only [hashContent, String.data_append]
  simp

theorem lookup_none_of_not_mem {m : FileMap} {k : String}
    (h : k ∉ m.map Prod.fst) : m.lookup k = none := by
  rw [List.lookup_eq_none_iff]
  intro p hp
  simp only [bne_iff_ne, ne_eq]
  intro he
  exact h (List.mem_map.mpr ⟨p, hp, he.symm⟩)

theorem lookup_some_of_mem {m : FileMap} {k : String}
    (h : k ∈ m.map Prod.fst) : ∃ v, m.lookup k = some v := by
  have : (m.lookup k).isSome := by
    rw [List.lookup_isSome_iff]
    obtain ⟨p, hp, hpk⟩ := List.mem_map.mp h
    exact ⟨p, hp, by simp [hpk]⟩
  exact ⟨(m.lookup k).get this, by simp⟩

theorem lookup_perm_eq {m1 m2 : FileMap} (hperm : m1.Perm m2)
    (hnd : (m1.map Prod.fst).Nodup) (k : String) : m1.lookup k = m2.lookup k := by
  induction hperm with
  | nil => rfl
  | cons x h ih =>
    obtain ⟨x1, x2⟩ := x
    rw [List.lookup_cons, List.lookup_cons]
    cases hbe : k == x1 with
    | true => rfl
    | false =>
      exact ih (by simpa using (List.nodup_cons.mp (by simpa using hnd)).2)
  | swap x y l =>
    obtain ⟨x1, x2⟩ := x
    obtain ⟨y1, y2⟩ := y
    simp only [List.map_cons, List.nodup_cons, List.mem_cons] at hnd
    have hxy : y1 ≠ x1 := fun he => hnd.1 (Or.inl he)
    rw [List.lookup_cons, List.lookup_cons, List.lookup_cons, List.lookup_cons]
    cases hky : k == y1 with
    | true =>
      cases hkx : k == x1 with
      | true =>
        exfalso
        exact hxy (by rw [← eq_of_beq hky, ← eq_of_beq hkx])
      | false => simp
    | false =>
      cases hkx : k == x1 with
      | true => simp
      | false => simp
  | trans h1 h2 ih1 ih2 =>
    rw [ih1 hnd, ih2 (((h1.map Prod.fst).nodup_iff).mp hnd)]

theorem fileValue_perm_eq {m1 m2 : FileMap} (hperm : m1.Perm m2)
    (hnd : (m1.map Prod.fst).Nodup) (k : String) : fileValue m1 k = fileValue m2 k := by
  simp only [fileValue, lookup_perm_eq hperm hnd k]

/-- The soul hash is invariant under reordering of the file map. -/
theorem computeSoulHash_perm {m1 m2 : FileMap} (hnd : (m1.map Prod.fst).Nodup)
    (hperm : m1.Perm m2) : computeSoulHash m1 = computeSoulHash m2 := by
  have hkeys : sortStrs (m1.map Prod.fst) = sortStrs (m2.map Prod.fst) :=
    sortStrs_eq_of_perm (hperm.map Prod.fst)
  simp only [computeSoulHash, ← hkeys]
  have hmap : (sortStrs (m1.map Prod.fst)).map (fun k => hashContent (fileValue m1 k))
      = (sortStrs (m1.map Prod.fst)).map (fun k => hashContent (fileValue m2 k)) :=
    List.map_congr_left (fun k _ => by rw [fileValue_perm_eq hperm hnd k])
  rw [hmap]

/-- Changing the content of any present file changes the soul hash. -/
theorem computeSoulHash_ne {m1 m2 : FileMap} (hnd : (m1.map Prod.fst).Nodup)
    (hkeys : m2.map Prod.fst = m1.map Prod.fst) {k : String}
    (hdiff : m1.lookup k ≠ m2.lookup k) :
    computeSoulHash m1 ≠ computeSoulHash m2 := by
  intro heq
  have hdata := congrArg String.data heq
  simp only [computeSoulHash, String.data_append] at hdata
  have hhex := List.append_cancel_left hdata
  have hcomb := stringToBytes_inj (bytesToHex_inj (stringToBytes_valid _) (stringToBytes_valid _)
    (strData_inj hhex))
  have hjoin := congrArg String.data hcomb
  have hcond1 : ∀ p ∈ ((sortStrs (m1.map Prod.fst)).map
      (fun j => hashContent (fileValue m1 j))).map String.data, '\n' ∉ p ∧ p ≠ [] := by
    intro p hp
    simp only [List.map_map, List.mem_map, Function.comp] at hp
    obtain ⟨j, _, hj⟩ := hp
    exact hj ▸ ⟨hashContent_no_newline _, hashContent_ne_nil _⟩
  have hcond2 : ∀ p ∈ ((sortStrs (m2.map Prod.fst)).map
      (fun j => hashContent (fileValue m2 j))).map String.data, '\n' ∉ p ∧ p ≠ [] := by
    intro p hp
    simp only [List.map_map, List.mem_map, Function.comp] at hp
    obtain ⟨j, _, hj⟩ := hp
    exact hj ▸ ⟨hashContent_no_newline _, hashContent_ne_nil _⟩
  have hlists := joinSepChars_inj _ _ hcond1 hcond2 hjoin
  have hmaps := List.map_injective_iff.mpr (fun a b hab => strData_inj hab) hlists
  rw [hkeys] at hmaps
  have hpt := List.map_eq_map_iff.mp hmaps
  by_cases hk : k ∈ m1.map Prod.fst
  · have hks : k ∈ sortStrs (m1.map Prod.fst) := ((sortStrs_perm _).mem_iff).mpr hk
    have hv := hashContent_inj (hpt k hks)
    obtain ⟨v1, hv1⟩ := lookup_some_of_mem hk
    obtain ⟨v2, hv2⟩ := lookup_some_of_mem (show k ∈ m2.map Prod.fst from hkeys ▸ hk)
    rw [fileValue, fileValue, hv1, hv2] at hv
    simp only [Option.getD_some] at hv
    exact hdiff (by rw [hv1, hv2, hv])
  · have h1n := lookup_none_of_not_mem hk
    have h2n := lookup_none_of_not_mem (show k ∉ m2.map Prod.fst from hkeys ▸ hk)
    exact hdiff (h1n.trans h2n.symm)

/-! ## Document module (document.ts) -/

/-- The proof object attached to an agent document. -/
structure DocumentProof where
  type : String
  created : String
  verificationMethod : String
  proofValue : String
deriving DecidableEq, Repr

/-- An ownership claim embedded in an agent document. -/
structure OwnershipClaim where
  claim : String
  method : String
  verifiedAt : Option String
deriving DecidableEq, Repr

/-- Agent creation options. -/
structure CreateAgentOptions where
  name : String
  framework : Option String
  version : Option String
  capabilities : Option (List String)
  endpoints : Option (List (String × String))
deriving DecidableEq, Repr

/-- The agent document record; `context` embeds the `@context` field. -/
structure AgentDocument where
  context : String
  id : String
  name : String
  framework : Option String
  version : Option String
  created : String
  capabilities : Option (List String)
  endpoints : Option (List (String × String))
  owner : Option OwnershipClaim
  integrity : Option IntegrityAttestation
  proof : DocumentProof
deriving DecidableEq, Repr

def SIGIL_CONTEXT : String := "https://sigil.dev/v1"

/-- JSON rendering of an ownership claim (field insertion order of the
record literal). -/
def ownerToJVal (o : OwnershipClaim) : JVal :=
  .jobj (JObj.ofList ([("claim", JVal.jstr o.claim), ("method", JVal.jstr o.method)]
    ++ (match o.verifiedAt with
        | some v => [("verifiedAt", JVal.jstr v)]
        | none => [])))

/-- JSON rendering of an integrity attestation embedded in a document. -/
def attToJVal (a : IntegrityAttestation) : JVal :=
  .jobj (JObj.ofList ([("soulHash", JVal.jstr a.soulHash)]
    ++ (match a.configHash with
        | some c => [("configHash", JVal.jstr c)]
        | none => [])
    ++ [("files", JVal.jarr (JArr.ofList (a.files.map JVal.jstr))),
        ("attestedAt", JVal.jstr a.attestedAt),
        ("signature", JVal.jstr a.signature)]))

/-- JSON rendering of the endpoints map. -/
def endpointsToJVal (e : List (String × String)) : JVal :=
  .jobj (JObj.ofList (e.map (fun p => (p.1, JVal.jstr p.2))))

/-- A conditionally present field (JS spread of an optional record). -/
def presentField {α : Type} (key : String) (f : α → JVal) : Option α → List (String × JVal)
  | some a => [(key, f a)]
  | none => []

/-- JS truthiness of an optional string: the empty string is falsy, so
`options.framework && ...` drops it. -/
def truthyStr : Option String → Option String
  | some s => if s = "" then none else some s
  | none => none

/-- The field list of the document body built by `createDocumentBody`
(insertion order of the object literal). -/
def documentBodyFields (sigilId : String) (options : CreateAgentOptions)
    (integrity : Option IntegrityAttestation) (owner : Option OwnershipClaim)
    (created : String) : List (String × JVal) :=
  [("@context", JVal.jstr SIGIL_CONTEXT), ("id", JVal.jstr sigilId),
   ("name", JVal.jstr options.name)]
  ++ presentField "framework" JVal.jstr (truthyStr options.framework)
  ++ presentField "version" JVal.jstr (truthyStr options.version)
  ++ [("created", JVal.jstr created)]
  ++ presentField "capabilities" (fun c => JVal.jarr (JArr.ofList (c.map JVal.jstr)))
      options.capabilities
  ++ presentField "endpoints" endpointsToJVal options.endpoints
  ++ presentField "owner" ownerToJVal owner
  ++ presentField "integrity" attToJVal integrity

/-- The field list of a document minus its proof, as `verifyDocument`
reconstructs it by destructuring (field order preserved from creation). -/
def docBodyFields (doc : AgentDocument) : List (String × JVal) :=
  [("@context", JVal.jstr doc.context), ("id", JVal.jstr doc.id),
   ("name", JVal.jstr doc.name)]
  ++ presentField "framework" JVal.jstr doc.framework
  ++ presentField "version" JVal.jstr doc.version
  ++ [("created", JVal.jstr doc.created)]
  ++ presentField "capabilities" (fun c => JVal.jarr (JArr.ofList (c.map JVal.jstr)))
      doc.capabilities
  ++ presentField "endpoints" endpointsToJVal doc.endpoints
  ++ presentField "owner" ownerToJVal doc.owner
  ++ presentField "integrity" attToJVal doc.integrity

/-- `createDocument`: build the body, canonicalize, sign, attach the
proof.  The two timestamps model the two separate `new Date()` calls. -/
def createDocument (kp : SigilKeypair) (options : CreateAgentOptions)
    (integrity : Option IntegrityAttestation) (owner : Option OwnershipClaim)
    (nowBody nowProof : String) : AgentDocument :=
  let sigilId := deriveSigilId kp.publicKey
  let canonical := canonicalize (JObj.ofList
    (documentBodyFields sigilId options integrity owner nowBody))
  { context := SIGIL_CONTEXT
    id := sigilId
    name := options.name
    framework := truthyStr options.framework
    version := truthyStr options.version
    created := nowBody
    capabilities := options.capabilities
    endpoints := options.endpoints
    owner := owner
    integrity := integrity
    proof := { type := "Ed25519Signature2020"
               created := nowProof
               verificationMethod := sigilId ++ "#key-1"
               proofValue := signString canonical kp.privateKey } }

/-- `verifyDocument`: recover the public key from the document's own id
(may throw), canonicalize the body without the proof, verify the
signature (bs58 may throw on a malformed proof value). -/
def verifyDocument (doc : AgentDocument) : Except String Bool := do
  let publicKey ← publicKeyFromSigilId doc.id
  let canonical := canonicalize (JObj.ofList (docBodyFields doc))
  verifyString doc.proof.proofValue canonical publicKey

/-- The body fields a verifier reconstructs from a freshly created document
are exactly the fields that were signed. -/
theorem docBodyFields_createDocument (kp : SigilKeypair) (options : CreateAgentOptions)
    (integrity : Option IntegrityAttestation) (owner : Option OwnershipClaim)
    (nowBody nowProof : String) :
    docBodyFields (createDocument kp options integrity owner nowBody nowProof)
      = documentBodyFields (deriveSigilId kp.publicKey) options integrity owner nowBody := rfl

theorem except_bind_ok {α β : Type} (a : α) (f : α → Except String β) :
    (Except.ok a : Except String α) >>= f = f a := rfl

/-- A freshly created document verifies. -/
theorem verifyDocument_createDocument {kp : SigilKeypair} (hkp : WellFormedKeypair kp)
    (options : CreateAgentOptions) (integrity : Option IntegrityAttestation)
    (owner : Option OwnershipClaim) (nowBody nowProof : String) :
    verifyDocument (createDocument kp options integrity owner nowBody nowProof) = .ok true := by
  have hpk : ValidBytes kp.publicKey := by
    rw [hkp.1]
    exact hkp.2
  have hid : (createDocument kp options integrity owner nowBody nowProof).id
      = deriveSigilId kp.publicKey := rfl
  simp only [verifyDocument, hid, publicKeyFromSigilId_deriveSigilId hpk,
    except_bind_ok, docBodyFields_createDocument]
  exact verifyString_signString hkp

/-! ## Key rotation module (rotation.ts) -/

/-- A key rotation statement (the constant `type` field is rendered in the
canonical body). -/
structure KeyRotationStatement where
  previousKey : String
  newKey : String
  sigilId : String
  rotatedAt : String
  reason : String
  proof : String
deriving DecidableEq, Repr

/-- A key revocation statement.  `validated` models the dynamic
`validated: true` JS property that `isKeyRevoked` reads: it is not part of
the TypeScript interface and is absent (`none`) unless some caller sets
it. -/
structure KeyRevocationStatement where
  revokedKey : String
  sigilId : String
  revokedAt : String
  reason : String
  proof : String
  validated : Option Bool
deriving DecidableEq, Repr

/-- One JS hex digit as read by `parseInt(-, 16)` (either case). -/
def hexCharValJS (c : Char) : Option Nat :=
  if 48 ≤ c.toNat ∧ c.toNat ≤ 57 then some (c.toNat - 48)
  else if 97 ≤ c.toNat ∧ c.toNat ≤ 102 then some (c.toNat - 87)
  else if 65 ≤ c.toNat ∧ c.toNat ≤ 70 then some (c.toNat - 55)
  else none

/-- `parseInt(pair, 16)` coerced into a `Uint8Array` slot: an invalid
first digit gives NaN, stored as 0; an invalid second digit leaves the
value of the first digit (parseInt parses the valid prefix). -/
def hexPairByte (c1 c2 : Char) : Nat :=
  match hexCharValJS c1, hexCharValJS c2 with
  | some a, some b => 16 * a + b
  | some a, none => a
  | none, _ => 0

/-- Consecutive pairs of characters (the loop over `i += 2`). -/
def hexPairsToBytes : List Char → Bytes
  | c1 :: c2 :: rest => hexPairByte c1 c2 :: hexPairsToBytes rest
  | _ => []

/-- The local `hexToBytes` helper of rotation.ts (for the even-length hex
strings produced by `bytesToHex`). -/
def hexToBytes (hex : String) : Bytes := hexPairsToBytes hex.data

theorem hexCharValJS_hexDigitChar : ∀ n < 16, hexCharValJS (hexDigitChar n) = some n := by
  decide

theorem hexPairsToBytes_byteHexChars {l : Bytes} (hv : ValidBytes l) :
    hexPairsToBytes (l.flatMap byteHexChars) = l := by
  induction l with
  | nil => rfl
  | cons b t ih =>
    have hb := hv b (by simp)
    simp only [List.flatMap_cons, byteHexChars, List.cons_append, List.nil_append,
      hexPairsToBytes, hexPairByte,
      hexCharValJS_hexDigitChar (b / 16 % 16) (Nat.mod_lt _ (by norm_num)),
      hexCharValJS_hexDigitChar (b % 16) (Nat.mod_lt _ (by norm_num))]
    congr 1
    · have h1 : b / 16 % 16 = b / 16 := Nat.mod_eq_of_lt (Nat.div_lt_of_lt_mul (by omega))
      omega
    · show hexPairsToBytes (t.flatMap byteHexChars) = t
      exact ih (fun x hx => hv x (by simp [hx]))

/-- The hex roundtrip used by `verifyRotation` to recover the signer key. -/
theorem hexToBytes_bytesToHex {l : Bytes} (hv : ValidBytes l) :
    hexToBytes (bytesToHex l) = l :=
  hexPairsToBytes_byteHexChars hv

/-- The canonical body of a rotation statement (insertion order of the
object literal in `createRotation`; destructuring `proof` out preserves
that order). -/
def rotationBodyFields (r : KeyRotationStatement) : List (String × JVal) :=
  [("type", JVal.jstr "key-rotation"), ("previousKey", JVal.jstr r.previousKey),
   ("newKey", JVal.jstr r.newKey), ("sigilId", JVal.jstr r.sigilId),
   ("rotatedAt", JVal.jstr r.rotatedAt), ("reason", JVal.jstr r.reason)]

/-- `createRotation`: the OLD key signs the canonicalized transition body. -/
def createRotation (oldKp : SigilKeypair) (newPublicKey : Bytes) (reason : String)
    (now : String) : KeyRotationStatement :=
  let body : KeyRotationStatement :=
    { previousKey := bytesToHex oldKp.publicKey
      newKey := bytesToHex newPublicKey
      sigilId := deriveSigilId oldKp.publicKey
      rotatedAt := now
      reason := reason
      proof := "" }
  let canonical := canonicalize (JObj.ofList (rotationBodyFields body))
  { body with proof := signString canonical oldKp.privateKey }

/-- `verifyRotation`: checks the proof against the key named in
`previousKey`, over the canonical body without the proof. -/
def verifyRotation (r : KeyRotationStatement) : Except String Bool :=
  verifyString r.proof (canonicalize (JObj.ofList (rotationBodyFields r)))
    (hexToBytes r.previousKey)

/-- The canonical body of a revocation statement; a dynamic `validated`
property, if present, is picked up by the destructuring in
`verifyRevocation` and lands at the end of the body. -/
def revocationBodyFields (r : KeyRevocationStatement) : List (String × JVal) :=
  [("type", JVal.jstr "key-revocation"), ("revokedKey", JVal.jstr r.revokedKey),
   ("sigilId", JVal.jstr r.sigilId), ("revokedAt", JVal.jstr r.revokedAt),
   ("reason", JVal.jstr r.reason)]
  ++ (match r.validated with
      | some b => [("validated", JVal.jbool b)]
      | none => [])

/-- `createRevocation`: signed by whichever keypair the caller passes; no
`validated` property is ever set here. -/
def createRevocation (signerKeypair : SigilKeypair) (revokedPublicKey : Bytes)
    (reason : String) (now : String) : KeyRevocationStatement :=
  let body : KeyRevocationStatement :=
    { revokedKey := bytesToHex revokedPublicKey
      sigilId := deriveSigilId signerKeypair.publicKey
      revokedAt := now
      reason := reason
      proof := ""
      validated := none }
  let canonical := canonicalize (JObj.ofList (revocationBodyFields body))
  { body with proof := signString canonical signerKeypair.privateKey }

/-- `verifyRevocation`: signature check against a caller-supplied key; it
returns a boolean and modifies nothing. -/
def verifyRevocation (r : KeyRevocationStatement) (signerPublicKey : Bytes) :
    Except String Bool :=
  verifyString r.proof (canonicalize (JObj.ofList (revocationBodyFields r))) signerPublicKey

/-- A key chain record. -/
structure KeyChain where
  originalKey : String
  currentKey : String
  rotations : List KeyRotationStatement
  revocations : List KeyRevocationStatement
deriving DecidableEq, Repr

/-- `buildKeyChain`: pure construction, no validation; `currentKey` is the
last rotation's `newKey`, or the original key for an empty rotation
list. -/
def buildKeyChain (originalPublicKey : Bytes) (rotations : List KeyRotationStatement)
    (revocations : List KeyRevocationStatement) : KeyChain :=
  { originalKey := bytesToHex originalPublicKey
    currentKey :=
      match rotations.getLast? with
      | some r => r.newKey
      | none => bytesToHex originalPublicKey
    rotations := rotations
    revocations := revocations }

/-- The structured result of `verifyKeyChain`. -/
structure VerifyChainResult where
  valid : Bool
  currentKey : String
  brokenAt : Option Nat
deriving DecidableEq, Repr

/-- The walk of `verifyKeyChain`: continuity first, then the signature;
either failure stops with the current index and the last good key. -/
def verifyKeyChainGo (expected : String) (i : Nat) :
    List KeyRotationStatement → Except String VerifyChainResult
  | [] => .ok { valid := true, currentKey := expected, brokenAt := none }
  | r :: rest =>
    if r.previousKey ≠ expected then
      .ok { valid := false, currentKey := expected, brokenAt := some i }
    else do
      let ok ← verifyRotation r
      if ok then verifyKeyChainGo r.newKey (i + 1) rest
      else .ok { valid := false, currentKey := expected, brokenAt := some i }

/-- `verifyKeyChain`: walk the rotations from the chain's original key. -/
def verifyKeyChain (chain : KeyChain) : Except String VerifyChainResult :=
  verifyKeyChainGo chain.originalKey 0 chain.rotations

/-- `isKeyRevoked`: membership test that only counts entries explicitly
marked `validated === true`; it verifies no signature itself. -/
def isKeyRevoked (chain : KeyChain) (publicKeyHex : String) : Bool :=
  chain.revocations.any (fun r => r.revokedKey == publicKeyHex && r.validated == some true)

/-- A rotation produced by `createRotation` under a well-formed keypair
verifies. -/
theorem verifyRotation_createRotation {oldKp : SigilKeypair} (hkp : WellFormedKeypair oldKp)
    (newPublicKey : Bytes) (reason now : String) :
    verifyRotation (createRotation oldKp newPublicKey reason now) = .ok true := by
  have hpk : ValidBytes oldKp.publicKey := by
    rw [hkp.1]
    exact hkp.2
  have hprev : (createRotation oldKp newPublicKey reason now).previousKey
      = bytesToHex oldKp.publicKey := rfl
  simp only [verifyRotation, hprev, hexToBytes_bytesToHex hpk]
  exact verifyString_signString hkp

/-! ## Agent module (agent.ts) -/

/-- The state of a `SigilAgent` instance: the mutable fields of the class,
passed explicitly. -/
structure SigilAgent where
  keypair : SigilKeypair
  id : String
  name : String
  options : CreateAgentOptions
  document : Option AgentDocument
  attestation : Option IntegrityAttestation
  originalPublicKey : Bytes
  rotations : List KeyRotationStatement
  revocations : List KeyRevocationStatement
deriving DecidableEq, Repr

/-- The private constructor: the id is derived from the original public
key, which defaults to the supplied keypair's public key. -/
def agentCtor (kp : SigilKeypair) (options : CreateAgentOptions)
    (originalPublicKey : Option Bytes) : SigilAgent :=
  let orig := originalPublicKey.getD kp.publicKey
  { keypair := kp
    id := deriveSigilId orig
    name := options.name
    options := options
    document := none
    attestation := none
    originalPublicKey := orig
    rotations := []
    revocations := [] }

/-- `SigilAgent.create` (the freshly generated keypair is passed in, since
key generation is the one source of entropy). -/
def agentCreate (freshKp : SigilKeypair) (options : CreateAgentOptions) : SigilAgent :=
  agentCtor freshKp options none

/-- `SigilAgent.fromKeypair`. -/
def agentFromKeypair (kp : SigilKeypair) (options : CreateAgentOptions) : SigilAgent :=
  agentCtor kp options none

/-- `SigilAgent.fromKeyChain`. -/
def agentFromKeyChain (currentKeypair : SigilKeypair) (originalPublicKey : Bytes)
    (rotations : List KeyRotationStatement) (options : CreateAgentOptions)
    (revocations : List KeyRevocationStatement) : SigilAgent :=
  { agentCtor currentKeypair options (some originalPublicKey) with
    rotations := rotations
    revocations := revocations }

/-- `agent.document(owner?)`: create, store and return the signed
document. -/
def agentMakeDocument (a : SigilAgent) (owner : Option OwnershipClaim)
    (nowBody nowProof : String) : SigilAgent × AgentDocument :=
  let d := createDocument a.keypair a.options a.attestation owner nowBody nowProof
  ({ a with document := some d }, d)

/-- `agent.attestIntegrity(files)`: create, store and return the
attestation. -/
def agentAttestIntegrity (a : SigilAgent) (files : FileMap) (now : String) :
    SigilAgent × IntegrityAttestation :=
  let att := createAttestation files a.keypair.privateKey now
  ({ a with attestation := some att }, att)

/-- `agent.rotateToKeypair(newKeypair, reason)`: the old key signs the
rotation, the rotation is appended, the active keypair is replaced. -/
def agentRotateToKeypair (a : SigilAgent) (newKeypair : SigilKeypair)
    (reason now : String) : SigilAgent × KeyRotationStatement :=
  let rotation := createRotation a.keypair newKeypair.publicKey reason now
  ({ a with keypair := newKeypair, rotations := a.rotations ++ [rotation] }, rotation)

/-- `agent.rotateKey(reason)`: as `rotateToKeypair` with a freshly
generated keypair (passed in). -/
def agentRotateKey (a : SigilAgent) (freshKp : SigilKeypair)
    (reason now : String) : SigilAgent × KeyRotationStatement :=
  agentRotateToKeypair a freshKp reason now

/-- `agent.revokeKey(revokedPublicKey, reason)`: sign a revocation with the
current key and append it. -/
def agentRevokeKey (a : SigilAgent) (revokedPublicKey : Bytes)
    (reason now : String) : SigilAgent × KeyRevocationStatement :=
  let revocation := createRevocation a.keypair revokedPublicKey reason now
  ({ a with revocations := a.revocations ++ [revocation] }, revocation)

/-- `agent.keyChain()`. -/
def agentKeyChain (a : SigilAgent) : KeyChain :=
  buildKeyChain a.originalPublicKey a.rotations a.revocations

/-- One state-changing call on an agent, with all entropy and clock inputs
made explicit. -/
inductive AgentOp where
  | rotateTo (newKeypair : SigilKeypair) (reason now : String)
  | rotate (freshKp : SigilKeypair) (reason now : String)
  | revoke (revokedPublicKey : Bytes) (reason now : String)
  | attest (files : FileMap) (now : String)
  | makeDocument (owner : Option OwnershipClaim) (nowBody nowProof : String)
deriving Repr

/-- Apply one call, keeping the updated agent state. -/
def applyOp (a : SigilAgent) : AgentOp → SigilAgent
  | .rotateTo kp reason now => (agentRotateToKeypair a kp reason now).1
  | .rotate kp reason now => (agentRotateKey a kp reason now).1
  | .revoke pk reason now => (agentRevokeKey a pk reason now).1
  | .attest files now => (agentAttestIntegrity a files now).1
  | .makeDocument owner t1 t2 => (agentMakeDocument a owner t1 t2).1

/-- Apply a sequence of calls. -/
def applyOps (a : SigilAgent) (ops : List AgentOp) : SigilAgent :=
  ops.foldl applyOp a

theorem applyOp_id (a : SigilAgent) (op : AgentOp) : (applyOp a op).id = a.id := by
  cases op <;> rfl

theorem applyOp_originalPublicKey (a : SigilAgent) (op : AgentOp) :
    (applyOp a op).originalPublicKey = a.originalPublicKey := by
  cases op <;> rfl

theorem applyOps_id (a : SigilAgent) (ops : List AgentOp) : (applyOps a ops).id = a.id := by
  induction ops generalizing a with
  | nil => rfl
  | cons op rest ih => rw [applyOps, List.foldl_cons, ← applyOps, ih, applyOp_id]

theorem applyOps_originalPublicKey (a : SigilAgent) (ops : List AgentOp) :
    (applyOps a ops).originalPublicKey = a.originalPublicKey := by
  induction ops generalizing a with
  | nil => rfl
  | cons op rest ih =>
    rw [applyOps, List.foldl_cons, ← applyOps, ih, applyOp_originalPublicKey]

theorem applyOp_revocations_validated (a : SigilAgent) (op : AgentOp)
    (h : ∀ r ∈ a.revocations, r.validated = none) :
    ∀ r ∈ (applyOp a op).revocations, r.validated = none := by
  cases op with
  | revoke pk reason now =>
    intro r hr
    simp only [applyOp, agentRevokeKey] at hr
    rcases List.mem_append.mp hr with hmem | hmem
    · exact h r hmem
    · simp only [List.mem_singleton] at hmem
      subst hmem
      rfl
  | rotateTo kp reason now => exact h
  | rotate kp reason now => exact h
  | attest files now => exact h
  | makeDocument owner t1 t2 => exact h

theorem applyOps_revocations_validated (a : SigilAgent) (ops : List AgentOp)
    (h : ∀ r ∈ a.revocations, r.validated = none) :
    ∀ r ∈ (applyOps a ops).revocations, r.validated = none := by
  induction ops generalizing a with
  | nil => exact h
  | cons op rest ih =>
    rw [applyOps, List.foldl_cons, ← applyOps]
    exact ih _ (applyOp_revocations_validated a op h)

/-! ## Claim C2 -/

/-- Modelled from the spec: sort file names lexicographically, digest each
file's content independently, concatenate the per-file digests in
sorted-name order with a fixed separator, digest the result. -/
def computeSoulHashSpec (files : FileMap) : String :=
  let names := sortStrs (files.map Prod.fst)
  let digests := names.map (fun k => hashContent (fileValue files k))
  hashContent ⟨joinSepChars '\n' (digests.map String.data)⟩

/-- The record `\x7b"b":\x7b"c":"x"\x7d,"a":"y"\x7d` used to exhibit the
canonicalization defect. -/
def nestedRecord : JObj :=
  JObj.ofList [("b", JVal.jobj (JObj.ofList [("c", JVal.jstr "x")])), ("a", JVal.jstr "y")]

/-- The same record with the nested field `c` deleted. -/
def nestedRecordDropped : JObj :=
  JObj.ofList [("b", JVal.jobj JObj.onil), ("a", JVal.jstr "y")]

/-- C2: canonicalize(record) equals the JSON serialization with field names
sorted recursively at every nesting level and every nested field preserved.
REFUTED on the code: the array replacer passed to JSON.stringify filters
the keys of every nested object down to the top-level key set, so the
nested field `c` is dropped: the record canonicalizes byte-identically to
the record without `c`, and differs from the specified recursive-sort
serialization. -/
theorem claim_C2_canonicalize_drops_nested_fields :
    canonicalize nestedRecord = canonicalize nestedRecordDropped
    ∧ nestedRecord ≠ nestedRecordDropped
    ∧ canonicalizeSpec nestedRecord ≠ canonicalizeSpec nestedRecordDropped
    ∧ canonicalize nestedRecord ≠ canonicalizeSpec nestedRecord := by
  refine ⟨rfl, ?_, by decide, by decide⟩
  intro h
  simp only [nestedRecord, nestedRecordDropped, JObj.ofList, JObj.ocons.injEq,
    JVal.jobj.injEq] at h
  exact absurd h.2.1 (fun hc => JObj.noConfusion hc)

/-! ## Claim C1 -/

/-- A concrete well-formed keypair (one-byte key material in the symbolic
signature model). -/
def kpA : SigilKeypair := { publicKey := [1], privateKey := [1] }

/-- A second keypair with a different key. -/
def kpB : SigilKeypair := { publicKey := [2], privateKey := [2] }

/-- Concrete creation options. -/
def optsA : CreateAgentOptions :=
  { name := "A", framework := none, version := none, capabilities := none, endpoints := none }

/-- A concrete embedded attestation (as in the repository's own document
test). -/
def attA : IntegrityAttestation :=
  { soulHash := "sha256:aa", configHash := none, files := ["SOUL.md"],
    attestedAt := "t0", signature := "sg" }

/-- The signed document under test, with an embedded integrity
attestation. -/
def docA : AgentDocument := createDocument kpA optsA (some attA) none "t1" "t2"

/-- The document after an attacker rewrites the embedded attestation's
soulHash. -/
def docTampered : AgentDocument :=
  { docA with integrity := some { attA with soulHash := "sha256:bb" } }

/-- The document with a mutated top-level field. -/
def docNameSwap : AgentDocument := { docA with name := "B" }

/-- The document with its id swapped for a different key's identifier. -/
def docIdSwap : AgentDocument := { docA with id := deriveSigilId kpB.publicKey }

set_option maxRecDepth 8000 in
/-- C1: mutating any signed field after creation -- top-level or nested
inside the embedded attestation -- or swapping the id, makes verifyDocument
return false.  REFUTED on the code: the array replacer drops every field
of the nested attestation from the canonical bytes, so rewriting the
attestation's soulHash leaves the signed bytes unchanged and verifyDocument
still returns true.  Top-level mutations and id substitution are detected. -/
theorem claim_C1_nested_mutation_undetected :
    verifyDocument docA = .ok true
    ∧ docTampered ≠ docA
    ∧ verifyDocument docTampered = .ok true
    ∧ verifyDocument docNameSwap = .ok false
    ∧ verifyDocument docIdSwap = .ok false := by
  refine ⟨rfl, by decide, rfl, rfl, rfl⟩

/-! ## Claim C6 -/

/-- C6: identifier derivation (prefix plus base-58 of the raw key bytes)
is exactly inverted by identifier decoding, for every public key. -/
theorem claim_C6_sigilId_roundtrip (publicKey : Bytes) (hv : ValidBytes publicKey) :
    publicKeyFromSigilId (deriveSigilId publicKey) = .ok publicKey :=
  publicKeyFromSigilId_deriveSigilId hv

/-- C6 witness: the roundtrip at a concrete key with a leading zero byte. -/
theorem claim_C6_sigilId_roundtrip_witness :
    publicKeyFromSigilId (deriveSigilId [0, 7, 255]) = .ok [0, 7, 255] :=
  claim_C6_sigilId_roundtrip [0, 7, 255] (by decide)

/-! ## Claim C5 -/

/-- C5: the soul hash is insertion-order-invariant over equal name/content
sets, changes whenever any present file's content changes, and is computed
exactly as the spec describes (sorted names, per-file digests, fixed
separator, outer digest). -/
theorem claim_C5_computeSoulHash :
    (∀ m1 m2 : FileMap, (m1.map Prod.fst).Nodup → m1.Perm m2 →
      computeSoulHash m1 = computeSoulHash m2)
    ∧ (∀ m1 m2 : FileMap, ∀ k : String, (m1.map Prod.fst).Nodup →
      m2.map Prod.fst = m1.map Prod.fst → m1.lookup k ≠ m2.lookup k →
      computeSoulHash m1 ≠ computeSoulHash m2)
    ∧ (∀ m : FileMap, computeSoulHash m = computeSoulHashSpec m) :=
  ⟨fun _ _ hnd hperm => computeSoulHash_perm hnd hperm,
   fun _ _ _ hnd hkeys hdiff => computeSoulHash_ne hnd hkeys hdiff,
   fun _ => rfl⟩

/-- C5 witness: order-invariance and content-sensitivity at concrete file
maps. -/
theorem claim_C5_computeSoulHash_witness :
    computeSoulHash [("b", "2"), ("a", "1")] = computeSoulHash [("a", "1"), ("b", "2")]
    ∧ computeSoulHash [("a", "1")] ≠ computeSoulHash [("a", "2")] :=
  ⟨claim_C5_computeSoulHash.1 [("b", "2"), ("a", "1")] [("a", "1"), ("b", "2")]
      (by decide) (List.Perm.swap ("a", "1") ("b", "2") []),
   claim_C5_computeSoulHash.2.1 [("a", "1")] [("a", "2")] "a" (by decide) rfl (by decide)⟩

/-! ## Claim C4 -/

/-- An attestation whose signature string is not base-58. -/
def attBadSig : IntegrityAttestation :=
  { soulHash := "h", configHash := none, files := [], attestedAt := "t", signature := "0" }

/-- C4 counterexample: the claim quantifies over every attestation, but an
attestation whose signature field is not well-formed base-58 makes
verifyAttestation throw (bs58.decode throws inside verifyString) instead of
returning a result object. -/
theorem claim_C4_counterexample :
    verifyAttestation attBadSig [] [] = .error "Non-base58 character" := rfl

/-- C4 (amended to attestations whose signature decodes, which includes
everything createAttestation produces): verifyAttestation reports
signatureValid as the signature check over the attestation's own recorded
fields, currentHash as the recomputed soul hash, hashMatch as their
comparison, and intact as the conjunction; in particular a genuine
attestation verified under the signer's key against altered files yields
signatureValid true, hashMatch false, intact false. -/
theorem claim_C4_verifyAttestation :
    (∀ (att : IntegrityAttestation) (currentFiles : FileMap) (publicKey sigBytes : Bytes),
      decode58 att.signature = some sigBytes →
      verifyAttestation att currentFiles publicKey = .ok
        { intact := edVerify sigBytes
            (stringToBytes (attPayload att.soulHash att.files att.attestedAt)) publicKey
            && (computeSoulHash currentFiles == att.soulHash)
          signatureValid := edVerify sigBytes
            (stringToBytes (attPayload att.soulHash att.files att.attestedAt)) publicKey
          hashMatch := computeSoulHash currentFiles == att.soulHash
          currentHash := computeSoulHash currentFiles })
    ∧ (∀ (files altered : FileMap) (sk : Bytes) (now k : String),
      ValidBytes sk → (files.map Prod.fst).Nodup →
      altered.map Prod.fst = files.map Prod.fst →
      files.lookup k ≠ altered.lookup k →
      verifyAttestation (createAttestation files sk now) altered (getPublicKey sk) = .ok
        { intact := false
          signatureValid := true
          hashMatch := false
          currentHash := computeSoulHash altered }) := by
  constructor
  · intro att currentFiles publicKey sigBytes hdec
    simp only [verifyAttestation, verifyString, hdec, except_bind_ok]
    rfl
  · intro files altered sk now k hsk hnd hkeys hdiff
    have hproj1 : (createAttestation files sk now).signature
        = signString (attPayload (computeSoulHash files) (sortStrs (files.map Prod.fst)) now)
          sk := rfl
    have hproj2 : (createAttestation files sk now).soulHash = computeSoulHash files := rfl
    have hproj3 : (createAttestation files sk now).files
        = sortStrs (files.map Prod.fst) := rfl
    have hproj4 : (createAttestation files sk now).attestedAt = now := rfl
    have hne : computeSoulHash altered ≠ computeSoulHash files :=
      fun h => computeSoulHash_ne hnd hkeys hdiff h.symm
    have hround : verifyString
        (signString (attPayload (computeSoulHash files) (sortStrs (files.map Prod.fst)) now) sk)
        (attPayload (computeSoulHash files) (sortStrs (files.map Prod.fst)) now)
        (getPublicKey sk) = .ok true := verifyString_signString_sk hsk
    simp only [verifyAttestation, hproj1, hproj2, hproj3, hproj4]
    rw [hround]
    simp only [except_bind_ok]
    rw [show (computeSoulHash altered == computeSoulHash files) = false from
      beq_eq_false_iff_ne.mpr hne]
    rfl

/-- C4 witness: the tampering scenario at a concrete attestation. -/
theorem claim_C4_verifyAttestation_witness :
    verifyAttestation (createAttestation [("SOUL.md", "A")] [1] "t") [("SOUL.md", "B")]
        (getPublicKey [1])
      = .ok { intact := false, signatureValid := true, hashMatch := false,
              currentHash := computeSoulHash [("SOUL.md", "B")] } :=
  claim_C4_verifyAttestation.2 [("SOUL.md", "A")] [("SOUL.md", "B")] [1] "t" "SOUL.md"
    (by decide) (by decide) rfl (by decide)

/-! ## Claim C8 -/

/-- A document whose id lacks the required prefix (its other fields are
arbitrary). -/
def docBadId : AgentDocument :=
  { context := SIGIL_CONTEXT, id := "invalid:abc", name := "A", framework := none,
    version := none, created := "t", capabilities := none, endpoints := none,
    owner := none, integrity := none,
    proof := { type := "Ed25519Signature2020", created := "t",
               verificationMethod := "m", proofValue := "p" } }

/-- C8 counterexample: verifyDocument does not return a boolean for every
AgentDocument -- on an id without the sigil prefix it throws the
FormatError raised by publicKeyFromSigilId. -/
theorem claim_C8_counterexample :
    verifyDocument docBadId = .error "Invalid Sigil ID: must start with \"sigil:\"" := rfl

/-- C8 (amended): verifyDocument returns a boolean for every document
whose id carries the prefix and decodes and whose proof value is
well-formed base-58; a document violating the id format instead surfaces
the FormatError of publicKeyFromSigilId (and bs58 decode failures
propagate from verifyString), rather than returning false. -/
theorem claim_C8_verifyDocument_totality :
    (∀ doc : AgentDocument, ¬ SIGIL_PREFIX.data.isPrefixOf doc.id.data →
      verifyDocument doc = .error "Invalid Sigil ID: must start with \"sigil:\"")
    ∧ (∀ (doc : AgentDocument) (pk sigBytes : Bytes),
      publicKeyFromSigilId doc.id = .ok pk →
      decode58 doc.proof.proofValue = some sigBytes →
      verifyDocument doc = .ok (edVerify sigBytes
        (stringToBytes (canonicalize (JObj.ofList (docBodyFields doc)))) pk)) := by
  constructor
  · intro doc hpre
    have hid : publicKeyFromSigilId doc.id
        = .error "Invalid Sigil ID: must start with \"sigil:\"" := by
      simp only [publicKeyFromSigilId]
      rw [if_neg (by simpa using hpre)]
    simp only [verifyDocument, hid]
    rfl
  · intro doc pk sigBytes hid hdec
    simp only [verifyDocument, hid, except_bind_ok, verifyString, hdec]

/-- A document with a well-formed id and a decodable (empty) proof value. -/
def docOkId : AgentDocument :=
  { docBadId with
    id := deriveSigilId [1]
    proof := { docBadId.proof with proofValue := encode58 [] } }

/-- C8 witness: both branches at concrete documents (a malformed id
throws; a well-formed id with decodable proof yields a boolean). -/
theorem claim_C8_verifyDocument_totality_witness :
    verifyDocument docBadId = .error "Invalid Sigil ID: must start with \"sigil:\""
    ∧ verifyDocument docOkId
      = .ok (edVerify [] (stringToBytes (canonicalize (JObj.ofList (docBodyFields docOkId)))) [1]) :=
  ⟨claim_C8_verifyDocument_totality.1 docBadId (by decide),
   claim_C8_verifyDocument_totality.2 docOkId [1] []
     (publicKeyFromSigilId_deriveSigilId (by decide)) (decode58_encode58 (by decide))⟩

/-! ## Claim C3 -/

/-- The walker's expected key before processing index `i`: the original
key at `i = 0`, afterwards the `newKey` of the previous rotation. -/
def chainKeyAt (expected : String) : List KeyRotationStatement → Nat → String
  | _, 0 => expected
  | [], _ + 1 => expected
  | r :: rest, i + 1 => chainKeyAt r.newKey rest i

theorem chainKeyAt_length (expected : String) (rots : List KeyRotationStatement) :
    chainKeyAt expected rots rots.length
      = match rots.getLast? with
        | some r => r.newKey
        | none => expected := by
  induction rots generalizing expected with
  | nil => rfl
  | cons r rest ih =>
    show chainKeyAt r.newKey rest rest.length = _
    rw [ih r.newKey]
    cases rest with
    | nil => rfl
    | cons w wtl =>
      rw [List.getLast?_cons_cons]
      cases hgl : (w :: wtl).getLast? with
      | none => simp at hgl
      | some g => simp [hgl]

theorem verifyKeyChainGo_ok (expected : String) (idx : Nat)
    (rots : List KeyRotationStatement)
    (hcont : ∀ i (h : i < rots.length),
      (rots.get ⟨i, h⟩).previousKey = chainKeyAt expected rots i)
    (hsig : ∀ r ∈ rots, verifyRotation r = .ok true) :
    verifyKeyChainGo expected idx rots
      = .ok { valid := true, currentKey := chainKeyAt expected rots rots.length,
              brokenAt := none } := by
  induction rots generalizing expected idx with
  | nil => rfl
  | cons r rest ih =>
    have h0 : r.previousKey = expected := hcont 0 (by simp)
    simp only [verifyKeyChainGo]
    rw [if_neg (by simp [h0]), hsig r (by simp)]
    simp only [except_bind_ok, if_true]
    have hcont2 : ∀ i (h : i < rest.length),
        (rest.get ⟨i, h⟩).previousKey = chainKeyAt r.newKey rest i :=
      fun i h => hcont (i + 1) (by simpa using Nat.succ_lt_succ h)
    have := ih r.newKey (idx + 1) hcont2 (fun r2 h2 => hsig r2 (by simp [h2]))
    rw [this]
    rfl

theorem verifyKeyChainGo_broken (expected : String) (idx : Nat)
    (rots : List KeyRotationStatement) (j : Nat) (hj : j < rots.length)
    (hpre : ∀ i (h : i < j),
      (rots.get ⟨i, by omega⟩).previousKey = chainKeyAt expected rots i
      ∧ verifyRotation (rots.get ⟨i, by omega⟩) = .ok true)
    (hbad : (rots.get ⟨j, hj⟩).previousKey ≠ chainKeyAt expected rots j
      ∨ ((rots.get ⟨j, hj⟩).previousKey = chainKeyAt expected rots j
        ∧ verifyRotation (rots.get ⟨j, hj⟩) = .ok false)) :
    verifyKeyChainGo expected idx rots
      = .ok { valid := false, currentKey := chainKeyAt expected rots j,
              brokenAt := some (idx + j) } := by
  induction rots generalizing expected idx j with
  | nil => exact absurd hj (by simp)
  | cons r rest ih =>
    cases j with
    | zero =>
      rcases hbad with hb | ⟨heq, hfail⟩
      · simp only [verifyKeyChainGo]
        rw [if_pos (by simpa using hb)]
        rfl
      · have hfail2 : verifyRotation r = .ok false := hfail
        have heq2 : r.previousKey = expected := heq
        simp only [verifyKeyChainGo]
        rw [if_neg (by simp [heq2]), hfail2]
        simp only [except_bind_ok, Bool.false_eq_true, if_false]
        rfl
    | succ j2 =>
      have hj2 : j2 < rest.length := by simpa using Nat.lt_of_succ_lt_succ hj
      have h0 := hpre 0 (by omega)
      have h0a : r.previousKey = expected := h0.1
      have h0b : verifyRotation r = .ok true := h0.2
      simp only [verifyKeyChainGo]
      rw [if_neg (by simp [h0a]), h0b]
      simp only [except_bind_ok, if_true]
      have hpre2 : ∀ i (h : i < j2),
          (rest.get ⟨i, by omega⟩).previousKey = chainKeyAt r.newKey rest i
          ∧ verifyRotation (rest.get ⟨i, by omega⟩) = .ok true :=
        fun i h => hpre (i + 1) (by omega)
      have hbad2 : (rest.get ⟨j2, hj2⟩).previousKey ≠ chainKeyAt r.newKey rest j2
          ∨ ((rest.get ⟨j2, hj2⟩).previousKey = chainKeyAt r.newKey rest j2
            ∧ verifyRotation (rest.get ⟨j2, hj2⟩) = .ok false) := hbad
      rw [ih r.newKey (idx + 1) j2 hj2 hpre2 hbad2]
      have : idx + 1 + j2 = idx + (j2 + 1) := by omega
      rw [this]
      rfl

/-- C3 (amended to rotation statements whose proof values are well-formed
base-58, as every statement produced by createRotation is): if the
rotations are continuous from the original key and every signature
verifies, verifyKeyChain reports valid with the final key (the chain's own
currentKey: the last rotation's newKey, or the original key for an empty
list); otherwise, with the first bad index decodable, it reports invalid at
the zero-based index of the first rotation that breaks continuity or whose
signature check returns false, with the last known-good key.  A rotation
with a non-base-58 proof instead makes the walk throw (see the
counterexample). -/
theorem claim_C3_verifyKeyChain :
    (∀ (k1 : Bytes) (rots : List KeyRotationStatement)
      (revs : List KeyRevocationStatement),
      (∀ i (h : i < rots.length),
        (rots.get ⟨i, h⟩).previousKey = chainKeyAt (bytesToHex k1) rots i) →
      (∀ r ∈ rots, verifyRotation r = .ok true) →
      verifyKeyChain (buildKeyChain k1 rots revs)
        = .ok { valid := true, currentKey := (buildKeyChain k1 rots revs).currentKey,
                brokenAt := none }
      ∧ (buildKeyChain k1 rots revs).currentKey
        = (match rots.getLast? with
           | some r => r.newKey
           | none => bytesToHex k1))
    ∧ (∀ (k1 : Bytes) (rots : List KeyRotationStatement)
      (revs : List KeyRevocationStatement) (j : Nat) (hj : j < rots.length),
      (∀ i (h : i < j),
        (rots.get ⟨i, by omega⟩).previousKey = chainKeyAt (bytesToHex k1) rots i
        ∧ verifyRotation (rots.get ⟨i, by omega⟩) = .ok true) →
      ((rots.get ⟨j, hj⟩).previousKey ≠ chainKeyAt (bytesToHex k1) rots j
        ∨ ((rots.get ⟨j, hj⟩).previousKey = chainKeyAt (bytesToHex k1) rots j
          ∧ verifyRotation (rots.get ⟨j, hj⟩) = .ok false)) →
      verifyKeyChain (buildKeyChain k1 rots revs)
        = .ok { valid := false, currentKey := chainKeyAt (bytesToHex k1) rots j,
                brokenAt := some j }) := by
  constructor
  · intro k1 rots revs hcont hsig
    have hcur : (buildKeyChain k1 rots revs).currentKey
        = chainKeyAt (bytesToHex k1) rots rots.length := by
      rw [chainKeyAt_length]
      rfl
    constructor
    · rw [verifyKeyChain]
      have := verifyKeyChainGo_ok (bytesToHex k1) 0 rots hcont hsig
      rw [show (buildKeyChain k1 rots revs).originalKey = bytesToHex k1 from rfl,
        show (buildKeyChain k1 rots revs).rotations = rots from rfl, this, hcur]
    · rw [hcur, chainKeyAt_length]
  · intro k1 rots revs j hj hpre hbad
    rw [verifyKeyChain]
    have := verifyKeyChainGo_broken (bytesToHex k1) 0 rots j hj hpre hbad
    rw [show (buildKeyChain k1 rots revs).originalKey = bytesToHex k1 from rfl,
      show (buildKeyChain k1 rots revs).rotations = rots from rfl, this]
    simp

/-- A rotation statement whose proof is not base-58 but whose continuity
link is intact. -/
def rotBadProof : KeyRotationStatement :=
  { previousKey := bytesToHex [1], newKey := bytesToHex [2], sigilId := "s",
    rotatedAt := "t", reason := "routine", proof := "0" }

/-- C3 counterexample: on a chain whose first rotation is continuous but
carries a non-base-58 proof, verifyKeyChain does not return the
valid=false/brokenAt=0 result the claim asserts for the otherwise branch --
it throws out of bs58. -/
theorem claim_C3_counterexample :
    verifyKeyChain (buildKeyChain [1] [rotBadProof] []) = .error "Non-base58 character" := rfl

/-- C3 witness: a two-step genuine chain built with createRotation
validates end to end, reporting the final key. -/
theorem claim_C3_verifyKeyChain_witness :
    verifyKeyChain (buildKeyChain [1]
        [createRotation kpA [2] "routine" "t1",
         createRotation kpB [3] "routine" "t2"] [])
      = .ok { valid := true,
              currentKey := (buildKeyChain [1]
                [createRotation kpA [2] "routine" "t1",
                 createRotation kpB [3] "routine" "t2"] []).currentKey,
              brokenAt := none } := by
  refine (claim_C3_verifyKeyChain.1 [1]
    [createRotation kpA [2] "routine" "t1", createRotation kpB [3] "routine" "t2"] []
    ?_ ?_).1
  · intro i h
    match i, h with
    | 0, _ => rfl
    | 1, _ => rfl
  · intro r hr
    rcases List.mem_cons.mp hr with h | h
    · rw [h]
      exact verifyRotation_createRotation (by decide) [2] "routine" "t1"
    · rw [List.mem_singleton.mp h]
      exact verifyRotation_createRotation (by decide) [3] "routine" "t2"

/-! ## Claim C7 -/

/-- C7: an agent's id equals the identifier derived from its original
public key, and no operation -- in particular no sequence of rotateKey /
rotateToKeypair calls -- ever changes it. -/
theorem claim_C7_agent_id_permanent :
    (∀ (kp : SigilKeypair) (opts : CreateAgentOptions) (ops : List AgentOp),
      (applyOps (agentCreate kp opts) ops).id = deriveSigilId kp.publicKey)
    ∧ (∀ (kp : SigilKeypair) (opts : CreateAgentOptions) (ops : List AgentOp),
      (applyOps (agentFromKeypair kp opts) ops).id = deriveSigilId kp.publicKey)
    ∧ (∀ (ckp : SigilKeypair) (opk : Bytes) (rots : List KeyRotationStatement)
        (opts : CreateAgentOptions) (revs : List KeyRevocationStatement)
        (ops : List AgentOp),
      (applyOps (agentFromKeyChain ckp opk rots opts revs) ops).id = deriveSigilId opk)
    ∧ (∀ (a : SigilAgent) (ops : List AgentOp),
      (applyOps a ops).id = a.id
      ∧ (applyOps a ops).originalPublicKey = a.originalPublicKey)
    ∧ (∀ (kp : SigilKeypair) (opts : CreateAgentOptions) (ops : List AgentOp),
      (applyOps (agentCreate kp opts) ops).id
        = deriveSigilId (applyOps (agentCreate kp opts) ops).originalPublicKey) :=
  ⟨fun kp opts ops => by rw [applyOps_id]; rfl,
   fun kp opts ops => by rw [applyOps_id]; rfl,
   fun ckp opk rots opts revs ops => by rw [applyOps_id]; rfl,
   fun a ops => ⟨applyOps_id a ops, applyOps_originalPublicKey a ops⟩,
   fun kp opts ops => by rw [applyOps_id, applyOps_originalPublicKey]; rfl⟩

/-! ## Claim C9 -/

/-- C9: isKeyRevoked is true exactly when some revocation entry names the
key and carries an explicit validated = true flag; it reads nothing but
the (revokedKey, validated) projection of the entries -- in particular it
never touches any proof, so it verifies no signature. -/
theorem claim_C9_isKeyRevoked :
    (∀ (chain : KeyChain) (k : String),
      isKeyRevoked chain k = true
        ↔ ∃ r ∈ chain.revocations, r.revokedKey = k ∧ r.validated = some true)
    ∧ (∀ (c1 c2 : KeyChain) (k : String),
      c1.revocations.map (fun r => (r.revokedKey, r.validated))
        = c2.revocations.map (fun r => (r.revokedKey, r.validated)) →
      isKeyRevoked c1 k = isKeyRevoked c2 k) := by
  constructor
  · intro chain k
    simp [isKeyRevoked, List.any_eq_true]
  · intro c1 c2 k hmap
    have h1 : ∀ (l : List KeyRevocationStatement),
        l.any (fun r => r.revokedKey == k && r.validated == some true)
          = (l.map (fun r => (r.revokedKey, r.validated))).any
              (fun p => p.1 == k && p.2 == some true) := by
      intro l
      induction l with
      | nil => rfl
      | cons r t ih => simp only [List.any_cons, List.map_cons, ih]
    simp only [isKeyRevoked, h1, hmap]

/-- Two concrete revocation entries equal except for their proofs. -/
def revP : KeyRevocationStatement :=
  { revokedKey := bytesToHex [2], sigilId := "s", revokedAt := "t", reason := "r",
    proof := "p1", validated := none }

/-- C9 witness: the characterization at a concrete chain, and proof
independence at two chains differing only in the entry's proof. -/
theorem claim_C9_isKeyRevoked_witness :
    (isKeyRevoked (buildKeyChain [1] [] [revP]) (bytesToHex [2]) = true
      ↔ ∃ r ∈ [revP], r.revokedKey = bytesToHex [2] ∧ r.validated = some true)
    ∧ isKeyRevoked (buildKeyChain [1] [] [revP]) (bytesToHex [2])
      = isKeyRevoked (buildKeyChain [1] [] [{ revP with proof := "p2" }]) (bytesToHex [2]) :=
  ⟨claim_C9_isKeyRevoked.1 (buildKeyChain [1] [] [revP]) (bytesToHex [2]),
   claim_C9_isKeyRevoked.2 (buildKeyChain [1] [] [revP])
     (buildKeyChain [1] [] [{ revP with proof := "p2" }]) (bytesToHex [2]) rfl⟩

/-! ## Claim C10 -/

/-- C10: no core operation sets the validated flag -- createRevocation and
revokeKey produce entries without it and buildKeyChain passes entries
through unchanged -- so isKeyRevoked is false for every key on any chain
assembled solely from these operations. -/
theorem claim_C10_no_validated_flag :
    (∀ (skp : SigilKeypair) (rpk : Bytes) (reason now : String),
      (createRevocation skp rpk reason now).validated = none)
    ∧ (∀ (a : SigilAgent) (rpk : Bytes) (reason now : String),
      (agentRevokeKey a rpk reason now).2.validated = none)
    ∧ (∀ (orig : Bytes) (rots : List KeyRotationStatement)
        (revs : List KeyRevocationStatement),
      (buildKeyChain orig rots revs).revocations = revs)
    ∧ (∀ (orig : Bytes) (rots : List KeyRotationStatement)
        (revs : List KeyRevocationStatement) (k : String),
      (∀ r ∈ revs, r.validated = none) →
      isKeyRevoked (buildKeyChain orig rots revs) k = false)
    ∧ (∀ (kp : SigilKeypair) (opts : CreateAgentOptions) (ops : List AgentOp) (k : String),
      isKeyRevoked (agentKeyChain (applyOps (agentCreate kp opts) ops)) k = false) := by
  have hfalse : ∀ (revs : List KeyRevocationStatement) (k : String),
      (∀ r ∈ revs, r.validated = none) →
      revs.any (fun r => r.revokedKey == k && r.validated == some true) = false := by
    intro revs k hnone
    rw [List.any_eq_false]
    intro r hr
    rw [hnone r hr]
    simp
  refine ⟨fun _ _ _ _ => rfl, fun _ _ _ _ => rfl, fun _ _ _ => rfl, ?_, ?_⟩
  · intro orig rots revs k hnone
    exact hfalse revs k hnone
  · intro kp opts ops k
    have hnone : ∀ r ∈ (applyOps (agentCreate kp opts) ops).revocations,
        r.validated = none :=
      applyOps_revocations_validated _ ops (by intro r hr; simp [agentCreate, agentCtor] at hr)
    exact hfalse _ k hnone

/-- C10 witness: a chain holding one freshly created revocation statement
reports the revoked key as not revoked. -/
theorem claim_C10_no_validated_flag_witness :
    isKeyRevoked (buildKeyChain [1] [] [createRevocation kpA [2] "compromised" "t"])
      (bytesToHex [2]) = false :=
  claim_C10_no_validated_flag.2.2.2.1 [1] [] [createRevocation kpA [2] "compromised" "t"]
    (bytesToHex [2])
    (by intro r hr; rw [List.mem_singleton.mp hr]; rfl)
